import Mathlib

/-!
Verification of the Bromont trail-matching engine
(`custom_components/bromont/osm_data.py`).

Strings are modelled as lists of Unicode characters (`Str`).  Python float
arithmetic on the similarity scores is modelled with exact rationals: every
score produced by the source is a quotient of small integers, and all the
properties checked here are decided by the same quotients.  The Unicode
character tables (`str.lower`, NFD diacritic stripping, regex `\w`) are
modelled over the Latin repertoire occurring in the trail data; characters
outside the tables are left unchanged.
-/

set_option allowUnsafeReducibility true
attribute [local semireducible] Rat.add Rat.sub Rat.mul Rat.inv Rat.ofScientific

namespace Bromont

/-- Strings modelled as lists of characters. -/
abbrev Str := List Char

/-- The apostrophe character (U+0027). -/
def apos : Char := Char.ofNat 39

/-- The backtick character (U+0060). -/
def btick : Char := Char.ofNat 96

/-- Python whitespace (`str.strip`, `str.split`, regex `\s`), ASCII range. -/
def isSpacePy (c : Char) : Bool :=
  c = ' ' || c = '\t' || c = '\n' || c = '\r'

/-- Uppercase-to-lowercase table modelling Python `str.lower` over the Latin
repertoire; characters not in the table are unchanged. -/
def lowerTable : List (Char × Char) :=
  [('A', 'a'), ('B', 'b'), ('C', 'c'), ('D', 'd'), ('E', 'e'), ('F', 'f'),
   ('G', 'g'), ('H', 'h'), ('I', 'i'), ('J', 'j'), ('K', 'k'), ('L', 'l'),
   ('M', 'm'), ('N', 'n'), ('O', 'o'), ('P', 'p'), ('Q', 'q'), ('R', 'r'),
   ('S', 's'), ('T', 't'), ('U', 'u'), ('V', 'v'), ('W', 'w'), ('X', 'x'),
   ('Y', 'y'), ('Z', 'z'),
   ('À', 'à'), ('Â', 'â'), ('Ä', 'ä'), ('È', 'è'), ('É', 'é'), ('Ê', 'ê'),
   ('Ë', 'ë'), ('Î', 'î'), ('Ï', 'ï'), ('Ô', 'ô'), ('Ö', 'ö'), ('Ù', 'ù'),
   ('Û', 'û'), ('Ü', 'ü'), ('Ç', 'ç'), ('Ñ', 'ñ'), ('Œ', 'œ'), ('Æ', 'æ')]

/-- Model of Python `str.lower` on one character. -/
def toLowerPy (c : Char) : Char :=
  ((lowerTable.find? (fun p => p.1 == c)).map (fun p => p.2)).getD c

/-- Model of Python `str.lower` on a string. -/
def toLowerStr (s : Str) : Str := s.map toLowerPy

/-- Python `str.strip()`. -/
def trimL (s : Str) : Str :=
  ((s.dropWhile isSpacePy).reverse.dropWhile isSpacePy).reverse

/-- Helper for `splitPy`: scan the characters, keeping the (reversed)
current token in the accumulator and emitting it at each whitespace run. -/
def splitPyAux : Str → Str → List Str
  | [], acc => if acc = [] then [] else [acc.reverse]
  | c :: rest, acc =>
    if isSpacePy c then
      if acc = [] then splitPyAux rest []
      else acc.reverse :: splitPyAux rest []
    else splitPyAux rest (c :: acc)

/-- Python `str.split()` (split on whitespace runs, no empty tokens). -/
def splitPy (s : Str) : List Str := splitPyAux s []

/-- Python `" ".join(tokens)`. -/
def joinSpace : List Str → Str
  | [] => []
  | [t] => t
  | t :: ts => t ++ ' ' :: joinSpace ts

/-- Helper for `replaceAllL`: `skip` counts characters still to drop because
they belong to an already-replaced occurrence of the pattern. -/
def replAux (pat rep : Str) : Str → Nat → Str
  | [], _ => []
  | _ :: rest, skip + 1 => replAux pat rep rest skip
  | c :: rest, 0 =>
    if pat ≠ [] ∧ pat.isPrefixOf (c :: rest) then
      rep ++ replAux pat rep rest (pat.length - 1)
    else c :: replAux pat rep rest 0

/-- Python `str.replace(pat, rep)` / `re.sub` on a plain pattern: leftmost,
non-overlapping, the replacement is not rescanned. -/
def replaceAllL (pat rep : Str) (s : Str) : Str := replAux pat rep s 0

/-- Python substring containment (`sub in s`). -/
def containsSeq (s sub : Str) : Bool := s.tails.any (fun t => sub.isPrefixOf t)

/-- Model of `re.sub(r'\s+\d+$', '', s)`: remove one trailing run of digits
preceded by a run of whitespace. -/
def stripNumQual (s : Str) : Str :=
  let r := s.reverse
  let ds := r.takeWhile Char.isDigit
  let r2 := r.drop ds.length
  let ws := r2.takeWhile isSpacePy
  if ds = [] ∨ ws = [] then s else (r2.drop ws.length).reverse

/-- Characters of the uppercase Roman-numeral class `[IVX]`. -/
def isRomanU (c : Char) : Bool := c = 'I' || c = 'V' || c = 'X'

/-- Characters of the lowercase Roman-numeral class `[ivx]`. -/
def isRomanL (c : Char) : Bool := c = 'i' || c = 'v' || c = 'x'

/-- Model of `re.sub(r'\s+[IVX]+$', '', s)` (and its lowercase variant),
parameterised by the character class. -/
def stripRomanQual (cls : Char → Bool) (s : Str) : Str :=
  let r := s.reverse
  let ds := r.takeWhile cls
  let r2 := r.drop ds.length
  let ws := r2.takeWhile isSpacePy
  if ds = [] ∨ ws = [] then s else (r2.drop ws.length).reverse

/-- Model of `re.sub(r'\s+(bis|ter)$', '', s, flags=IGNORECASE)`. -/
def stripBisTer (s : Str) : Str :=
  let r := s.reverse
  let low3 := (r.take 3).map toLowerPy
  if low3 = ['s', 'i', 'b'] ∨ low3 = ['r', 'e', 't'] then
    let r2 := r.drop 3
    let ws := r2.takeWhile isSpacePy
    if ws = [] then s else (r2.drop ws.length).reverse
  else s

/-- The `prefixes_to_remove` list of `_normalize_trail_name`, in source
order. -/
def prefixesToRemove : List Str :=
  ["piste ".data, "piste de ".data, "piste du ".data, "piste des ".data,
   "trail ".data, "la ".data, "le ".data, "les ".data, 'l' :: [apos],
   "sentier ".data, "sentier de ".data, "sentier du ".data,
   "sentier des ".data]

/-- The prefix-removal loop of `_normalize_trail_name`: the first entry of
the list matching case-insensitively at the start is removed (then `break`). -/
def removeNameLead (name : Str) : Str :=
  match prefixesToRemove.find? (fun p => p.isPrefixOf (toLowerStr name)) with
  | some p => name.drop p.length
  | none => name

/-- `_normalize_trail_name`: area-suffix split on `|`, one leading-prefix
removal, trailing number / Roman numeral / bis-ter qualifier removal. -/
def normalizeTrailName (name : Str) : Str :=
  let name :=
    if name.contains '|' then trimL (name.takeWhile (fun c => !(c == '|')))
    else trimL name
  let name := removeNameLead name
  let name := stripNumQual name
  let name := stripRomanQual isRomanU name
  let name := stripBisTer name
  trimL name

/-- The four single-character replacements of the `french_replacements`
table of `_normalize_for_comparison`. -/
def charLig (c : Char) : List Char :=
  if c = 'œ' then ['o', 'e']
  else if c = 'æ' then ['a', 'e']
  else if c = 'ç' then ['c']
  else if c = 'ñ' then ['n']
  else [c]

/-- NFD decomposition followed by removal of combining marks (category Mn),
as a per-character table over the Latin repertoire: accented letters map to
their base letter, combining marks map to nothing, anything else is kept. -/
def accentTable : List (Char × List Char) :=
  [('à', ['a']), ('â', ['a']), ('ä', ['a']), ('è', ['e']), ('é', ['e']),
   ('ê', ['e']), ('ë', ['e']), ('î', ['i']), ('ï', ['i']), ('ô', ['o']),
   ('ö', ['o']), ('ù', ['u']), ('û', ['u']), ('ü', ['u']), ('ç', ['c']),
   ('ñ', ['n']),
   ('À', ['A']), ('Â', ['A']), ('Ä', ['A']), ('È', ['E']), ('É', ['E']),
   ('Ê', ['E']), ('Ë', ['E']), ('Î', ['I']), ('Ï', ['I']), ('Ô', ['O']),
   ('Ö', ['O']), ('Ù', ['U']), ('Û', ['U']), ('Ü', ['U']), ('Ç', ['C']),
   ('Ñ', ['N']),
   ('̀', []), ('́', []), ('̂', []), ('̈', []),
   ('̧', [])]

/-- One character of the accent-removal step. -/
def charAcc (c : Char) : List Char :=
  ((accentTable.find? (fun p => p.1 == c)).map (fun p => p.2)).getD [c]

/-- The apostrophe-like characters replaced by spaces (the source line
replaces the ASCII apostrophe three times and the backtick once). -/
def isQuoteChar (c : Char) : Bool := c = apos || c = btick

/-- The dash-like characters replaced by spaces: hyphen, en dash, em dash,
underscore. -/
def isDashChar (c : Char) : Bool := c = '-' || c = '–' || c = '—' || c = '_'

/-- The `articles` list of `_normalize_for_comparison`, in source order. -/
def articlesList : List Str :=
  ["le ".data, "la ".data, "les ".data, "l ".data, "de ".data, "du ".data,
   "des ".data, "d ".data]

/-- The article-removal loop of `_normalize_for_comparison`: for each
article, strip it once at the start, then replace every occurrence of
`" " ++ article` by `" "`. -/
def removeArticles (name : Str) : Str :=
  articlesList.foldl
    (fun name article =>
      let name := if article.isPrefixOf name then name.drop article.length else name
      replaceAllL (' ' :: article) [' '] name)
    name

/-- Model of regex `\w` (word character) over the Latin repertoire: ASCII
letters and digits, underscore, the accented letters of the tables, and the
ligature letters. -/
def isWordPy (c : Char) : Bool :=
  c.isAlpha || c.isDigit || c = '_' ||
    (accentTable.any (fun p => p.1 == c && !p.2.isEmpty)) ||
    c = 'œ' || c = 'æ'

/-- `_normalize_for_comparison`: lowercase and strip, ligature replacement,
accent removal, apostrophe and dash normalization, article removal,
punctuation removal, trailing numeral and Roman-numeral removal, whitespace
collapse. -/
def normalizeForComparison (name : Str) : Str :=
  let name := trimL (toLowerStr name)
  let name := name.flatMap charLig
  let name := name.flatMap charAcc
  let name := name.map (fun c => if isQuoteChar c then ' ' else c)
  let name := name.map (fun c => if isDashChar c then ' ' else c)
  let name := removeArticles name
  let name := name.filter (fun c => isWordPy c || isSpacePy c)
  let name := stripNumQual name
  let name := stripRomanQual isRomanL name
  joinSpace (splitPy name)

/-- `_remove_common_suffixes`: sequentially strip the four generic suffix
words. -/
def removeCommonSuffixes (name : Str) : Str :=
  [" prk".data, " park".data, " trail".data, " piste".data].foldl
    (fun name suf =>
      if suf.isSuffixOf name then trimL (name.take (name.length - suf.length))
      else name)
    name

/-- One row update of the Levenshtein matrix: the inner
`for j in range(1, len2 + 1)` loop of `_levenshtein_similarity`.  `left` is
`current_row[j-1]`, the first two entries of the third argument are
`previous_row[j-1]` and `previous_row[j]`. -/
def levStep (c1 : Char) : Nat → List Nat → Str → List Nat
  | left, p0 :: p1 :: ps, c2 :: cs =>
    let cur := min (p1 + 1) (min (left + 1) (p0 + (if c1 = c2 then 0 else 1)))
    cur :: levStep c1 cur (p1 :: ps) cs
  | _, _, _ => []

/-- The outer `for i in range(1, len1 + 1)` loop building successive rows,
starting from `range(len2 + 1)`. -/
def levLoop (s2 : Str) : List Nat → Nat → Str → List Nat
  | row, _, [] => row
  | row, i, c1 :: cs => levLoop s2 (i :: levStep c1 i row s2) (i + 1) cs

/-- The Levenshtein distance (`current_row[len2]`) as computed by the matrix
loop of `_levenshtein_similarity`. -/
def levDistance (s1 s2 : Str) : Nat :=
  (levLoop s2 (List.range (s2.length + 1)) 1 s1).getD s2.length 0

/-- `_levenshtein_similarity`: `1 - distance / max(len1, len2)`, `0` when
either string is empty; the longer string is processed as `s1`. -/
def levenshteinSimilarity (s1 s2 : Str) : ℚ :=
  if s1 = [] ∨ s2 = [] then 0
  else
    let p := if s1.length < s2.length then (s2, s1) else (s1, s2)
    let distance := levDistance p.1 p.2
    let maxLen := max p.1.length p.2.length
    1 - (distance : ℚ) / (maxLen : ℚ)

/-- `_token_similarity`: Jaccard index of the whitespace-token sets (Python
sets modelled as finsets). -/
def tokenSimilarity (name1 name2 : Str) : ℚ :=
  let tokens1 := (splitPy name1).toFinset
  let tokens2 := (splitPy name2).toFinset
  if tokens1 = ∅ ∨ tokens2 = ∅ then 0
  else
    let inter := tokens1 ∩ tokens2
    let union := tokens1 ∪ tokens2
    if union ≠ ∅ then (inter.card : ℚ) / (union.card : ℚ) else 0

/-- The plain (not end-anchored) rules of `_french_phonetic`, in source
order. -/
def phoneticRules : List (Str × Str) :=
  [("ph".data, "f".data), ("qu".data, "k".data), ("ch".data, "sh".data),
   ("eau".data, "o".data), ("au".data, "o".data), ("oi".data, "wa".data),
   ("ou".data, "u".data), ("ain".data, "in".data), ("ein".data, "in".data),
   ("tion".data, "sion".data)]

/-- `_french_phonetic`: lowercase, the substitution rules in order (the last
four are end-anchored: `x$ -> s`, `[sz]$ -> ''`, `e$ -> ''`, `ent$ -> ''`),
then removal of every `h`. -/
def frenchPhonetic (text : Str) : Str :=
  let text := toLowerStr text
  let text := phoneticRules.foldl (fun t pr => replaceAllL pr.1 pr.2 t) text
  let text :=
    match text.reverse with
    | c :: r => if c = 'x' then ('s' :: r).reverse else text
    | [] => text
  let text :=
    match text.reverse with
    | c :: r => if c = 's' ∨ c = 'z' then r.reverse else text
    | [] => text
  let text :=
    match text.reverse with
    | c :: r => if c = 'e' then r.reverse else text
    | [] => text
  let text :=
    if ("ent".data).isSuffixOf text then text.take (text.length - 3) else text
  text.filter (fun c => !(c = 'h'))

/-- `_phonetic_similarity`: Levenshtein similarity of the phonetic forms. -/
def phoneticSimilarity (name1 name2 : Str) : ℚ :=
  levenshteinSimilarity (frenchPhonetic name1) (frenchPhonetic name2)

/-- The `difficulty_map` of `_difficulties_match`, in source order. -/
def difficultyMap : List (Str × List Str) :=
  [("facile".data,
    ["easy".data, "green".data, "beginner".data, "facile".data, "vert".data]),
   ("intermed".data,
    ["intermediate".data, "blue".data, "intermed".data, "intermediaire".data,
     "bleu".data]),
   ("difficile".data,
    ["difficult".data, "black".data, "difficile".data, "noir".data,
     "advanced".data]),
   ("tdifficile".data,
    ["expert".data, "double-black".data, "tdifficile".data,
     "tres-difficile".data, "expert".data])]

/-- `_difficulties_match`: false on an empty label, then direct equality of
the lowercased-stripped labels, then shared membership in one tier's variant
list. -/
def difficultiesMatch (diff1 diff2 : Str) : Bool :=
  if diff1 = [] ∨ diff2 = [] then false
  else
    let d1 := trimL (toLowerStr diff1)
    let d2 := trimL (toLowerStr diff2)
    if d1 = d2 then true
    else difficultyMap.any (fun p => p.2.contains d1 && p.2.contains d2)

/-- Python truthiness of an optional string (`None` and `""` are falsy). -/
def truthyOpt : Option Str → Bool
  | none => false
  | some s => !s.isEmpty

/-- `_calculate_similarity_score`: the `scores` and `weights` lists built by
the source (the difficulty sub-signal is appended only when both labels are
truthy), summed as `sum(s * w for s, w in zip(...)) / total_weight`. -/
def calculateSimilarityScore (name1 name2 : Str)
    (difficulty1 difficulty2 : Option Str) : ℚ :=
  let levScore := levenshteinSimilarity name1 name2
  let tokenScore := tokenSimilarity name1 name2
  let phoneticScore := phoneticSimilarity name1 name2
  let withDiff := truthyOpt difficulty1 && truthyOpt difficulty2
  let scores : List ℚ :=
    [levScore, tokenScore, phoneticScore] ++
      (if withDiff then
        [if difficultiesMatch (difficulty1.getD []) (difficulty2.getD [])
         then 1 else 0]
       else [])
  let weights : List ℚ := [0.4, 0.3, 0.2] ++ (if withDiff then [0.1] else [])
  let totalWeight := weights.sum
  (List.zipWith (fun s w => s * w) scores weights).sum / totalWeight

/-- `_names_similar`: exact equality after comparison-normalization,
substring containment, equality after common-suffix removal, or composite
score at least 0.75. -/
def namesSimilar (name1 name2 : Str)
    (difficulty1 difficulty2 : Option Str) : Bool :=
  let n1 := normalizeForComparison name1
  let n2 := normalizeForComparison name2
  if n1 = n2 then true
  else if containsSeq n2 n1 || containsSeq n1 n2 then true
  else if removeCommonSuffixes n1 = removeCommonSuffixes n2 then true
  else decide ((0.75 : ℚ) ≤ calculateSimilarityScore n1 n2 difficulty1 difficulty2)

/-- A catalog entry (`trail_info`); the raw `tags` dict and the GeoJSON
mirror of `coordinates` are not repeated here. -/
structure Trail where
  osm_id : Int
  name : Str
  ref : Str
  piste_type : Option Str
  difficulty : Option Str
  grooming : Option Str
  lit : Option Str
  oneway : Option Str
  coordinates : Option (List (ℚ × ℚ))
  center : Option (ℚ × ℚ)
deriving DecidableEq, Repr

/-- A raw Overpass element: type, id, tags and embedded way geometry
(latitude-longitude points; an absent geometry is the empty list). -/
structure OSMElement where
  typ : Str
  id : Int
  tags : List (Str × Str)
  geometry : List (ℚ × ℚ)
deriving DecidableEq, Repr

/-- Python `tags.get(k)`. -/
def tagGet (tags : List (Str × Str)) (k : Str) : Option Str :=
  (tags.find? (fun p => p.1 == k)).map (fun p => p.2)

/-- Python `a or b` on an optional string (`None` and `""` fall through). -/
def pyOr (a : Option Str) (b : Str) : Str :=
  match a with
  | some s => if s = [] then b else s
  | none => b

/-- The trail display name: `(tags.get("name") or tags.get("piste:name") or
tags.get("ref") or "").strip()`. -/
def trailNameOf (tags : List (Str × Str)) : Str :=
  trimL (pyOr (tagGet tags "name".data)
    (pyOr (tagGet tags "piste:name".data)
      (pyOr (tagGet tags "ref".data) [])))

/-- The five recognized `piste:type` values. -/
def recognizedPisteTypes : List Str :=
  ["downhill".data, "nordic".data, "skitour".data, "sled".data, "hike".data]

/-- The `trail_info` record built for one accepted way. -/
def trailInfoOf (e : OSMElement) : Trail :=
  let tags := e.tags
  let coordinates := if e.geometry = [] then none else some e.geometry
  let center :=
    match coordinates with
    | some cs =>
      if cs = [] then none
      else
        some ((cs.map Prod.fst).sum / (cs.length : ℚ),
          (cs.map Prod.snd).sum / (cs.length : ℚ))
    | none => none
  { osm_id := e.id
    name := trailNameOf tags
    ref := trimL ((tagGet tags "ref".data).getD [])
    piste_type := tagGet tags "piste:type".data
    difficulty := tagGet tags "piste:difficulty".data
    grooming := tagGet tags "piste:grooming".data
    lit := tagGet tags "lit".data
    oneway := tagGet tags "piste:oneway".data
    coordinates := coordinates
    center := center }

/-- Insertion-ordered dict insert: an overwrite keeps the key's original
position (Python `dict` assignment). -/
def dinsert (k : Str) (v : Trail) : List (Str × Trail) → List (Str × Trail)
  | [] => [(k, v)]
  | (k1, v1) :: rest =>
    if k1 = k then (k, v) :: rest else (k1, v1) :: dinsert k v rest

/-- Dict lookup. -/
def dlookup (k : Str) : List (Str × Trail) → Option Trail
  | [] => none
  | (k1, v1) :: rest => if k1 = k then some v1 else dlookup k rest

/-- Processing of one element by `_parse_trails`: ways whose `piste:type`
is recognized and whose derived name is non-empty are inserted under the
lowercased name, and additionally under `"ref_" ++ ref` when the ref is
non-empty. -/
def parseStep (trails : List (Str × Trail)) (e : OSMElement) :
    List (Str × Trail) :=
  if e.typ = "way".data then
    if recognizedPisteTypes.contains ((tagGet e.tags "piste:type".data).getD [])
    then
      let info := trailInfoOf e
      if info.name ≠ [] then
        let trails := dinsert (toLowerStr info.name) info trails
        if info.ref ≠ [] then dinsert ("ref_".data ++ info.ref) info trails
        else trails
      else trails
    else trails
  else trails

/-- `_parse_trails` (second pass over the elements; the node table collected
by the first pass is never used by the source and is omitted). -/
def parseTrails (elements : List OSMElement) : List (Str × Trail) :=
  elements.foldl parseStep []

/-- Which branch of `match_trail` produced a result. -/
inductive MatchTier
  | Exact
  | Reference
  | Fuzzy
deriving DecidableEq, Repr

/-- A match outcome: the returned entry, the confidence (`best_score` in the
fuzzy branch, `1` for direct hits) and the producing branch. -/
structure MatchResult where
  entry : Trail
  confidence : ℚ
  tier : MatchTier
deriving DecidableEq, Repr

/-- The fuzzy-candidate loop of `match_trail`: skip `"ref_"`-prefixed keys,
admit via `_names_similar`, rank by the composite score, strictly greater
beats the current best. -/
def fuzzyLoop (nname : Str) (difficulty : Option Str) :
    List (Str × Trail) → Option Trail → ℚ → Option Trail × ℚ
  | [], best, bestScore => (best, bestScore)
  | (k, t) :: rest, best, bestScore =>
    if !(("ref_".data).isPrefixOf k) then
      if namesSimilar nname t.name difficulty t.difficulty then
        let score := calculateSimilarityScore (normalizeForComparison nname)
          (normalizeForComparison t.name) difficulty t.difficulty
        if bestScore < score then fuzzyLoop nname difficulty rest (some t) score
        else fuzzyLoop nname difficulty rest best bestScore
      else fuzzyLoop nname difficulty rest best bestScore
    else fuzzyLoop nname difficulty rest best bestScore

/-- `match_trail`: exact primary-key lookup of the normalized record name,
then reference lookup, then the fuzzy scan; returns `none` when the fuzzy
scan kept no best match. -/
def matchTrail (trails : List (Str × Trail)) (trailName : Str)
    (trailNumber : Option Str) (difficulty : Option Str) :
    Option MatchResult :=
  let normalizedName := normalizeTrailName trailName
  let key := trimL (toLowerStr normalizedName)
  match dlookup key trails with
  | some t => some ⟨t, 1, MatchTier.Exact⟩
  | none =>
    match
      (if truthyOpt trailNumber then
        dlookup ("ref_".data ++ trailNumber.getD []) trails
       else none) with
    | some t => some ⟨t, 1, MatchTier.Reference⟩
    | none =>
      match fuzzyLoop normalizedName difficulty trails none 0 with
      | (some t, bestScore) => some ⟨t, bestScore, MatchTier.Fuzzy⟩
      | (none, _) => none

/-! Concrete scenario data. -/

/-- The `{id: 7, name: "Miami", difficulty: "intermediate"}` catalog feature
of the spec's scenario. -/
def miamiFeature : OSMElement :=
  ⟨"way".data, 7,
    [("name".data, "Miami".data), ("piste:type".data, "downhill".data),
     ("piste:difficulty".data, "intermediate".data)], []⟩

/-- The single-entry catalog built from `miamiFeature`. -/
def miamiCatalog : List (Str × Trail) := parseTrails [miamiFeature]

/-! Helper characterizations. -/

/-- Truthiness of an optional string spelled out. -/
theorem truthyOpt_eq_true_iff (d : Option Str) :
    truthyOpt d = true ↔ ∃ s, d = some s ∧ s ≠ [] := by
  cases d with
  | none => simp [truthyOpt]
  | some s => cases s <;> simp [truthyOpt]

/-- C9 — `match` on the empty catalog returns no match for every record;
the embedding itself witnesses that the matcher is a total function. -/
theorem matchTrail_empty_catalog (name : Str) (num diff : Option Str) :
    matchTrail [] name num diff = none := by
  simp [matchTrail, dlookup, fuzzyLoop]

/-- C7 — the difficulty sub-signal is included iff both labels are present
and non-empty, and the composite score divides the weighted sum by the sum
of the weights actually used: 1.0 with difficulty, 0.9 without. -/
theorem calculateSimilarityScore_renormalizes (n1 n2 : Str)
    (d1 d2 : Option Str) :
    ((truthyOpt d1 && truthyOpt d2) = true ↔
      ((∃ s, d1 = some s ∧ s ≠ []) ∧ (∃ s, d2 = some s ∧ s ≠ []))) ∧
    calculateSimilarityScore n1 n2 d1 d2 =
      (if truthyOpt d1 && truthyOpt d2 then
        (0.4 * levenshteinSimilarity n1 n2 + 0.3 * tokenSimilarity n1 n2 +
          0.2 * phoneticSimilarity n1 n2 +
          0.1 * (if difficultiesMatch (d1.getD []) (d2.getD [])
                 then (1 : ℚ) else 0)) / 1
       else
        (0.4 * levenshteinSimilarity n1 n2 + 0.3 * tokenSimilarity n1 n2 +
          0.2 * phoneticSimilarity n1 n2) / 0.9) := by
  constructor
  · rw [Bool.and_eq_true, truthyOpt_eq_true_iff, truthyOpt_eq_true_iff]
  · unfold calculateSimilarityScore
    cases h : truthyOpt d1 && truthyOpt d2 <;>
      simp only [h, if_true, if_false, Bool.false_eq_true, List.append_nil,
        List.cons_append, List.nil_append, List.zipWith, List.sum_cons,
        List.sum_nil] <;>
      ring_nf

/-- Bridging lemma: `List.contains` is membership. -/
theorem containsL_iff_mem {l : List Str} {a : Str} :
    l.contains a = true ↔ a ∈ l :=
  List.elem_iff

/-- C8 (corrected) — the difficulty sub-signal is 1.0 iff both labels are
non-empty and either their normalized forms are equal (even when neither
belongs to any tier's variant list) or both belong to the same tier's
variant list. -/
theorem difficultiesMatch_iff (d1 d2 : Str) :
    difficultiesMatch d1 d2 = true ↔
      (d1 ≠ [] ∧ d2 ≠ [] ∧
        (trimL (toLowerStr d1) = trimL (toLowerStr d2) ∨
          ∃ p ∈ difficultyMap,
            trimL (toLowerStr d1) ∈ p.2 ∧ trimL (toLowerStr d2) ∈ p.2)) := by
  unfold difficultiesMatch
  by_cases h : d1 = [] ∨ d2 = []
  · simp only [h, if_true]
    constructor
    · intro hf; exact absurd hf (by simp)
    · intro ⟨h1, h2, _⟩; rcases h with h | h
      · exact absurd h h1
      · exact absurd h h2
  · push_neg at h
    simp only [eq_self_iff_true, h.1, h.2, ne_eq, not_false_eq_true,
      true_and, if_neg (by simp [h.1, h.2] : ¬(d1 = [] ∨ d2 = []))]
    by_cases he : trimL (toLowerStr d1) = trimL (toLowerStr d2)
    · simp [he]
    · simp only [he, if_false, false_or]
      rw [List.any_eq_true]
      constructor
      · intro ⟨p, hp, hb⟩
        rw [Bool.and_eq_true, containsL_iff_mem, containsL_iff_mem] at hb
        exact ⟨p, hp, hb.1, hb.2⟩
      · intro ⟨p, hp, hb1, hb2⟩
        exact ⟨p, hp, by
          rw [Bool.and_eq_true, containsL_iff_mem, containsL_iff_mem]
          exact ⟨hb1, hb2⟩⟩

/-- C8 counterexample — two identical labels that belong to no tier's
variant list still score 1.0 through the direct-equality branch, refuting
the claim that such labels never score 1.0. -/
theorem difficultiesMatch_purple :
    difficultiesMatch "purple".data "purple".data = true ∧
      ∀ p ∈ difficultyMap, "purple".data ∉ p.2 := by
  constructor
  · decide
  · decide

/-! Dictionary lemmas. -/

theorem dinsert_ne_nil (k : Str) (v : Trail) (l : List (Str × Trail)) :
    dinsert k v l ≠ [] := by
  cases l with
  | nil => simp [dinsert]
  | cons p rest => unfold dinsert; split <;> simp

theorem dlookup_dinsert_self (k : Str) (v : Trail) (l : List (Str × Trail)) :
    dlookup k (dinsert k v l) = some v := by
  induction l with
  | nil => simp [dinsert, dlookup]
  | cons p rest ih =>
    obtain ⟨k1, v1⟩ := p
    unfold dinsert
    by_cases h : k1 = k
    · simp [h, dlookup]
    · simp only [h, if_false]
      unfold dlookup
      simp [h, ih]

theorem dlookup_dinsert_ne {k k' : Str} (h : k' ≠ k) (v : Trail)
    (l : List (Str × Trail)) :
    dlookup k' (dinsert k v l) = dlookup k' l := by
  have hne : ¬ k = k' := fun hh => h hh.symm
  induction l with
  | nil => simp only [dinsert, dlookup, if_neg hne]
  | cons p rest ih =>
    obtain ⟨k1, v1⟩ := p
    simp only [dinsert]
    by_cases h1 : k1 = k
    · rw [if_pos h1]
      simp only [dlookup]
      rw [if_neg hne, if_neg (fun hh : k1 = k' => hne (h1 ▸ hh))]
    · rw [if_neg h1]
      simp only [dlookup]
      by_cases h2 : k1 = k'
      · rw [if_pos h2, if_pos h2]
      · rw [if_neg h2, if_neg h2, ih]

/-- The acceptance condition of `_parse_trails` for one element: a way,
recognized `piste:type`, non-empty derived name. -/
def keptWay (e : OSMElement) : Prop :=
  e.typ = "way".data ∧
    ((tagGet e.tags "piste:type".data).getD []) ∈ recognizedPisteTypes ∧
    trailNameOf e.tags ≠ []

instance (e : OSMElement) : Decidable (keptWay e) := by
  unfold keptWay; infer_instance

theorem parseStep_not_kept (trails : List (Str × Trail)) (e : OSMElement)
    (h : ¬ keptWay e) : parseStep trails e = trails := by
  unfold parseStep
  by_cases h1 : e.typ = "way".data
  · by_cases h2 :
        ((tagGet e.tags "piste:type".data).getD []) ∈ recognizedPisteTypes
    · by_cases h3 : trailNameOf e.tags = []
      · rw [if_pos h1, if_pos (containsL_iff_mem.mpr h2), if_neg]
        simpa [trailInfoOf, trailNameOf] using h3
      · exact absurd ⟨h1, h2, h3⟩ h
    · rw [if_pos h1, if_neg (fun hc => h2 (containsL_iff_mem.mp hc))]
  · rw [if_neg h1]

theorem parseStep_kept (trails : List (Str × Trail)) (e : OSMElement)
    (h : keptWay e) :
    parseStep trails e =
      (if (trailInfoOf e).ref ≠ [] then
        dinsert ("ref_".data ++ (trailInfoOf e).ref) (trailInfoOf e)
          (dinsert (toLowerStr (trailInfoOf e).name) (trailInfoOf e) trails)
       else dinsert (toLowerStr (trailInfoOf e).name) (trailInfoOf e) trails) := by
  have h3 : (trailInfoOf e).name ≠ [] := h.2.2
  simp only [parseStep, if_pos h.1, if_pos (containsL_iff_mem.mpr h.2.1),
    if_pos h3]

/-- C5 (corrected) — building the catalog from a feature is total and skips
the feature iff it is not a way with a recognized `piste:type` and a usable
name; a kept feature is indexed under its lowercased name even when its
geometry is empty, but (contrary to the claim) a feature whose category tag
is unrecognized is skipped even when it has a usable name. -/
theorem parseTrails_single_iff (f : OSMElement) :
    (parseTrails [f] = [] ↔ ¬ keptWay f) ∧
      (keptWay f →
        dlookup (toLowerStr (trailNameOf f.tags)) (parseTrails [f]) =
          some (trailInfoOf f)) := by
  have hstep : parseTrails [f] = parseStep [] f := rfl
  have hname : (trailInfoOf f).name = trailNameOf f.tags := rfl
  by_cases hk : keptWay f
  · rw [hstep, parseStep_kept [] f hk]
    constructor
    · constructor
      · intro habs
        exfalso
        by_cases hr : (trailInfoOf f).ref ≠ []
        · rw [if_pos hr] at habs; exact dinsert_ne_nil _ _ _ habs
        · rw [if_neg hr] at habs; exact dinsert_ne_nil _ _ _ habs
      · intro habs; exact absurd hk habs
    · intro _
      by_cases hr : (trailInfoOf f).ref ≠ []
      · rw [if_pos hr]
        by_cases hkeys :
            toLowerStr (trailNameOf f.tags) = "ref_".data ++ (trailInfoOf f).ref
        · rw [hkeys, dlookup_dinsert_self]
        · rw [dlookup_dinsert_ne hkeys, ← hname, dlookup_dinsert_self]
      · rw [if_neg hr, ← hname, dlookup_dinsert_self]
  · rw [hstep, parseStep_not_kept [] f hk]
    exact ⟨by simp [hk], fun h => absurd h hk⟩

/-- C5 witness — the single-feature characterization applied to the kept
`miamiFeature`, with the acceptance condition discharged concretely. -/
theorem parseTrails_single_witness :
    dlookup (toLowerStr (trailNameOf miamiFeature.tags))
        (parseTrails [miamiFeature]) =
      some (trailInfoOf miamiFeature) :=
  (parseTrails_single_iff miamiFeature).2 (by decide)

/-- C5 counterexample — a way with a usable name but an unrecognized
category tag is skipped entirely, refuting the claim that such features are
included. -/
theorem unrecognized_category_skipped :
    parseTrails
      [⟨"way".data, 5,
        [("name".data, "x".data), ("piste:type".data, "foo".data)], []⟩] =
      [] ∧ "x".data ≠ ([] : Str) := by
  constructor
  · rfl
  · decide

/-- C6 counterexample — for the catalog `{id: 7, name: "Miami"}` and the
record `"Miami 2"`, the trailing-qualifier strip happens inside the record's
key normalization, so the match is an exact-tier hit, not a fuzzy one. -/
theorem miami2_exact_not_fuzzy :
    matchTrail miamiCatalog ("Miami 2".data) none (some "intermediate".data) =
      some ⟨trailInfoOf miamiFeature, 1, MatchTier.Exact⟩ ∧
    MatchTier.Exact ≠ MatchTier.Fuzzy := by
  exact ⟨by rfl, by decide⟩

/-- C6 (corrected) — the scenario's record matches the scenario's entry with
confidence 1.0 (hence at least 0.95), but with tier Exact rather than
Fuzzy. -/
theorem miami2_match_result :
    matchTrail miamiCatalog ("Miami 2".data) none (some "intermediate".data) =
      some ⟨trailInfoOf miamiFeature, 1, MatchTier.Exact⟩ ∧
    (0.95 : ℚ) ≤ 1 := by
  exact ⟨by rfl, by norm_num⟩

/-! Levenshtein self-distance. -/

/-- Every entry of a row update is bounded by its diagonal predecessor plus
the substitution cost. -/
theorem levStep_getD_le (c1 : Char) (left : Nat) (prev : List Nat) (s2 : Str)
    (t : Nat) :
    (levStep c1 left prev s2).getD t 0 ≤
      prev.getD t 0 + (if c1 = s2.getD t ' ' then 0 else 1) := by
  induction t generalizing left prev s2 with
  | zero =>
    cases prev with
    | nil => simp [levStep]
    | cons p0 rest =>
      cases rest with
      | nil => simp [levStep]
      | cons p1 ps =>
        cases s2 with
        | nil => simp [levStep]
        | cons c2 cs =>
          simp only [levStep, List.getD_cons_zero]
          exact le_trans (Nat.min_le_right _ _) (Nat.min_le_right _ _)
  | succ t ih =>
    cases prev with
    | nil => simp [levStep]
    | cons p0 rest =>
      cases rest with
      | nil => simp [levStep]
      | cons p1 ps =>
        cases s2 with
        | nil => simp [levStep]
        | cons c2 cs =>
          simp only [levStep, List.getD_cons_succ]
          exact ih _ _ _

/-- Along the diagonal of a self-comparison, the running row keeps the value
0 at the position of the processed length. -/
theorem levLoop_self_getD (s : Str) :
    ∀ (rest : Str) (k : Nat) (row : List Nat), rest = s.drop k →
      k ≤ s.length → row.getD k 0 = 0 →
      (levLoop s row (k + 1) rest).getD s.length 0 = 0 := by
  intro rest
  induction rest with
  | nil =>
    intro k row hdrop hk hrow
    have hlen : s.length ≤ k := by
      have := congrArg List.length hdrop
      simp only [List.length_nil, List.length_drop] at this
      omega
    have hks : k = s.length := le_antisymm hk hlen
    rw [← hks]
    simp only [levLoop]
    exact hrow
  | cons c1 cs ih =>
    intro k row hdrop hk hrow
    have hk1 : k < s.length := by
      by_contra hko
      push_neg at hko
      rw [List.drop_eq_nil_of_le hko] at hdrop
      exact List.cons_ne_nil _ _ hdrop
    have hsplit : s.drop k = s.get ⟨k, hk1⟩ :: s.drop (k + 1) :=
      List.drop_eq_getElem_cons hk1
    rw [hsplit] at hdrop
    have hc1 : c1 = s.get ⟨k, hk1⟩ := (List.cons.injEq _ _ _ _ ▸ hdrop).1
    have hcs : cs = s.drop (k + 1) := (List.cons.injEq _ _ _ _ ▸ hdrop).2
    have hgetD : s.getD k ' ' = s.get ⟨k, hk1⟩ := by
      rw [List.getD_eq_getElem?_getD, List.getElem?_eq_getElem hk1]
      rfl
    simp only [levLoop]
    apply ih (k + 1) _ hcs hk1
    rw [List.getD_cons_succ]
    have hb := levStep_getD_le c1 (k + 1) row s k
    rw [hgetD, if_pos hc1, hrow] at hb
    omega

/-- The matrix loop of `_levenshtein_similarity` computes distance 0 for a
string compared with itself. -/
theorem levDistance_self (s : Str) : levDistance s s = 0 := by
  unfold levDistance
  apply levLoop_self_getD s s 0 (List.range (s.length + 1)) (by simp)
    (Nat.zero_le _)
  rw [List.range_succ_eq_map, List.getD_cons_zero]

/-- `_levenshtein_similarity` of a non-empty string with itself is 1. -/
theorem levenshteinSimilarity_self (s : Str) (hs : s ≠ []) :
    levenshteinSimilarity s s = 1 := by
  unfold levenshteinSimilarity
  rw [if_neg (by simp [hs])]
  simp only [lt_irrefl, if_neg, ite_false]
  rw [levDistance_self]
  simp

/-- `_token_similarity` of a string with itself is 1 whenever the string has
at least one whitespace-delimited token. -/
theorem tokenSimilarity_self (s : Str) (h : splitPy s ≠ []) :
    tokenSimilarity s s = 1 := by
  unfold tokenSimilarity
  have hne : (splitPy s).toFinset ≠ ∅ := by
    rw [ne_eq, List.toFinset_eq_empty_iff]
    exact h
  rw [if_neg (by simp [hne])]
  rw [Finset.union_self, Finset.inter_self, if_pos (by simp [hne])]
  have hcard : ((splitPy s).toFinset.card : ℚ) ≠ 0 := by
    rw [Nat.cast_ne_zero, ← Nat.pos_iff_ne_zero, Finset.card_pos]
    exact Finset.nonempty_of_ne_empty hne
  exact div_self hcard

/-- C3 (corrected) — the composite score of a string with itself is exactly
1.0 provided the string has at least one token and a non-empty
French-phonetic form; the phonetic sub-signal of two equal strings whose
phonetic form is empty is 0, which is what breaks the original claim. -/
theorem calculateSimilarityScore_self (s : Str) (h1 : splitPy s ≠ [])
    (h2 : frenchPhonetic s ≠ []) :
    calculateSimilarityScore s s none none = 1 := by
  have hs : s ≠ [] := by
    intro he
    rw [he] at h1
    exact h1 rfl
  unfold calculateSimilarityScore
  simp only [truthyOpt, Bool.false_and, Bool.and_false, if_false,
    Bool.false_eq_true, List.append_nil]
  rw [levenshteinSimilarity_self s hs, tokenSimilarity_self s h1]
  unfold phoneticSimilarity
  rw [levenshteinSimilarity_self _ h2]
  norm_num [List.zipWith, List.sum_cons, List.sum_nil]

/-- C3 witness — the amended self-similarity theorem applied to `"miami"`. -/
theorem calculateSimilarityScore_self_witness :
    calculateSimilarityScore ("miami".data) ("miami".data) none none = 1 :=
  calculateSimilarityScore_self ("miami".data) (by decide) (by decide)

/-- C3 counterexample — `"h"` is non-empty, yet its self-score is 7/9, not
1.0: its French-phonetic form is empty (the `h` is removed), so the phonetic
sub-signal contributes 0. -/
theorem calculateSimilarityScore_self_h :
    calculateSimilarityScore ("h".data) ("h".data) none none ≠ 1 ∧
      ("h".data : Str) ≠ [] := by
  constructor
  · decide
  · decide

/-! The fuzzy tier as a best-candidate scan. -/

/-- The fuzzy-tier candidates: primary-indexed entries passing
`_names_similar`, in catalog iteration order. -/
def admittedTrails (nname : Str) (difficulty : Option Str)
    (trails : List (Str × Trail)) : List Trail :=
  (trails.filter (fun p =>
    !(("ref_".data).isPrefixOf p.1) &&
      namesSimilar nname p.2.name difficulty p.2.difficulty)).map
    (fun p => p.2)

/-- The composite score the fuzzy loop assigns to a candidate entry. -/
def fuzzyScore (nname : Str) (difficulty : Option Str) (t : Trail) : ℚ :=
  calculateSimilarityScore (normalizeForComparison nname)
    (normalizeForComparison t.name) difficulty t.difficulty

/-- The best-candidate scan of the fuzzy loop, restricted to the admitted
entries. -/
def pickBest (sc : Trail → ℚ) :
    List Trail → Option Trail → ℚ → Option Trail × ℚ
  | [], best, bestScore => (best, bestScore)
  | t :: rest, best, bestScore =>
    if bestScore < sc t then pickBest sc rest (some t) (sc t)
    else pickBest sc rest best bestScore

/-- The fuzzy loop only consults the admitted entries, in order. -/
theorem fuzzyLoop_eq_pickBest (nname : Str) (difficulty : Option Str) :
    ∀ (l : List (Str × Trail)) (best : Option Trail) (bestScore : ℚ),
      fuzzyLoop nname difficulty l best bestScore =
        pickBest (fuzzyScore nname difficulty)
          (admittedTrails nname difficulty l) best bestScore := by
  intro l
  induction l with
  | nil => intro best bestScore; rfl
  | cons p rest ih =>
    intro best bestScore
    obtain ⟨k, t⟩ := p
    by_cases h1 : ("ref_".data).isPrefixOf k
    · have : admittedTrails nname difficulty ((k, t) :: rest) =
          admittedTrails nname difficulty rest := by
        simp [admittedTrails, List.filter, h1]
      rw [this, ← ih]
      simp [fuzzyLoop, h1]
    · by_cases h2 : namesSimilar nname t.name difficulty t.difficulty
      · have : admittedTrails nname difficulty ((k, t) :: rest) =
            t :: admittedTrails nname difficulty rest := by
          simp [admittedTrails, List.filter, h1, h2]
        rw [this]
        simp only [fuzzyLoop, h1, Bool.not_false, if_true, h2, pickBest]
        have hsc : calculateSimilarityScore (normalizeForComparison nname)
            (normalizeForComparison t.name) difficulty t.difficulty =
            fuzzyScore nname difficulty t := rfl
        rw [hsc]
        by_cases h3 : bestScore < fuzzyScore nname difficulty t
        · rw [if_pos h3, if_pos h3, ih]
        · rw [if_neg h3, if_neg h3, ih]
      · have : admittedTrails nname difficulty ((k, t) :: rest) =
            admittedTrails nname difficulty rest := by
          simp [admittedTrails, List.filter, h1, h2]
        rw [this, ← ih]
        simp [fuzzyLoop, h1, h2]

/-- When no candidate beats the running best, the scan keeps it. -/
theorem pickBest_of_all_le (sc : Trail → ℚ) :
    ∀ (l : List Trail) (b : Option Trail) (s : ℚ),
      (∀ t ∈ l, sc t ≤ s) → pickBest sc l b s = (b, s) := by
  intro l
  induction l with
  | nil => intro b s _; rfl
  | cons t rest ih =>
    intro b s h
    have ht : ¬ s < sc t := not_lt.mpr (h t (List.mem_cons_self t rest))
    simp only [pickBest, if_neg ht]
    exact ih b s (fun u hu => h u (List.mem_cons_of_mem t hu))

/-- When some candidate beats the running best, the scan returns the first
candidate attaining the maximal score, with that score. -/
theorem pickBest_exists_gt (sc : Trail → ℚ) :
    ∀ (l : List Trail) (b : Option Trail) (s : ℚ),
      (∃ t ∈ l, s < sc t) →
      ∃ (n : Nat) (hn : n < l.length),
        pickBest sc l b s = (some l[n], sc l[n]) ∧
        s < sc l[n] ∧
        (∀ t ∈ l, sc t ≤ sc l[n]) ∧
        (∀ m (hm : m < l.length), m < n → sc l[m] < sc l[n]) := by
  intro l
  induction l with
  | nil => intro b s h; simp at h
  | cons t rest ih =>
    intro b s h
    by_cases hts : s < sc t
    · by_cases hrest : ∃ u ∈ rest, sc t < sc u
      · obtain ⟨n, hn, heq, hgt, hall, hfirst⟩ := ih (some t) (sc t) hrest
        refine ⟨n + 1, by simpa using Nat.succ_lt_succ hn, ?_, ?_, ?_, ?_⟩
        · simpa [pickBest, if_pos hts] using heq
        · simpa using lt_trans hts hgt
        · intro u hu
          rcases List.mem_cons.mp hu with hh | hh
          · simpa [hh] using le_of_lt hgt
          · simpa using hall u hh
        · intro m hm hmn
          cases m with
          | zero => simpa using hgt
          | succ m' =>
            have hm' : m' < rest.length := by simpa using hm
            simpa using hfirst m' hm' (Nat.lt_of_succ_lt_succ hmn)
      · push_neg at hrest
        refine ⟨0, by simp, ?_, by simpa using hts, ?_, ?_⟩
        · simp only [pickBest, if_pos hts, List.getElem_cons_zero]
          exact pickBest_of_all_le sc rest (some t) (sc t) hrest
        · intro u hu
          rcases List.mem_cons.mp hu with hh | hh
          · simp [hh]
          · simpa using hrest u hh
        · intro m hm hmn
          exact absurd hmn (Nat.not_lt_zero m)
    · have hrest : ∃ u ∈ rest, s < sc u := by
        obtain ⟨u, hu, hsu⟩ := h
        rcases List.mem_cons.mp hu with hh | hh
        · exact absurd (hh ▸ hsu) hts
        · exact ⟨u, hh, hsu⟩
      obtain ⟨n, hn, heq, hgt, hall, hfirst⟩ := ih b s hrest
      refine ⟨n + 1, by simpa using Nat.succ_lt_succ hn, ?_, by simpa using hgt,
        ?_, ?_⟩
      · simpa [pickBest, if_neg hts] using heq
      · intro u hu
        rcases List.mem_cons.mp hu with hh | hh
        · simpa [hh] using le_of_lt (lt_of_le_of_lt (not_lt.mp hts) hgt)
        · simpa using hall u hh
      · intro m hm hmn
        cases m with
        | zero =>
          simpa using lt_of_le_of_lt (not_lt.mp hts) hgt
        | succ m' =>
          have hm' : m' < rest.length := by simpa using hm
          simpa using hfirst m' hm' (Nat.lt_of_succ_lt_succ hmn)

/-- C1 (corrected) — when the exact and reference tiers miss: if some
admitted entry has a positive composite score, `match` returns the first
admitted entry attaining the strictly greatest composite score, with tier
Fuzzy and that score as confidence; if every admitted entry scores at most
0 (in particular when no entry is admitted at all, but also in the
degenerate admitted-with-score-0 case that refutes the original claim),
`match` returns no match. -/
theorem matchTrail_fuzzy_characterization (trails : List (Str × Trail))
    (name : Str) (num diff : Option Str)
    (hexact :
      dlookup (trimL (toLowerStr (normalizeTrailName name))) trails = none)
    (href :
      (if truthyOpt num then
        dlookup ("ref_".data ++ num.getD []) trails
       else none) = none) :
    ((∃ t ∈ admittedTrails (normalizeTrailName name) diff trails,
        0 < fuzzyScore (normalizeTrailName name) diff t) →
      ∃ (n : Nat)
        (hn : n < (admittedTrails (normalizeTrailName name) diff trails).length),
        matchTrail trails name num diff =
          some ⟨(admittedTrails (normalizeTrailName name) diff trails)[n],
            fuzzyScore (normalizeTrailName name) diff
              (admittedTrails (normalizeTrailName name) diff trails)[n],
            MatchTier.Fuzzy⟩ ∧
        (∀ t ∈ admittedTrails (normalizeTrailName name) diff trails,
          fuzzyScore (normalizeTrailName name) diff t ≤
            fuzzyScore (normalizeTrailName name) diff
              (admittedTrails (normalizeTrailName name) diff trails)[n]) ∧
        (∀ m (hm : m < (admittedTrails (normalizeTrailName name) diff trails).length),
          m < n →
          fuzzyScore (normalizeTrailName name) diff
              (admittedTrails (normalizeTrailName name) diff trails)[m] <
            fuzzyScore (normalizeTrailName name) diff
              (admittedTrails (normalizeTrailName name) diff trails)[n])) ∧
    ((∀ t ∈ admittedTrails (normalizeTrailName name) diff trails,
        fuzzyScore (normalizeTrailName name) diff t ≤ 0) →
      matchTrail trails name num diff = none) := by
  have hred : matchTrail trails name num diff =
      (match fuzzyLoop (normalizeTrailName name) diff trails none 0 with
       | (some t, bestScore) => some ⟨t, bestScore, MatchTier.Fuzzy⟩
       | (none, _) => none) := by
    simp only [matchTrail]
    rw [hexact, href]
  rw [fuzzyLoop_eq_pickBest] at hred
  constructor
  · intro hex
    obtain ⟨n, hn, heq, _, hall, hfirst⟩ :=
      pickBest_exists_gt (fuzzyScore (normalizeTrailName name) diff)
        (admittedTrails (normalizeTrailName name) diff trails) none 0 hex
    refine ⟨n, hn, ?_, hall, hfirst⟩
    rw [hred, heq]
  · intro hle
    rw [hred,
      pickBest_of_all_le (fuzzyScore (normalizeTrailName name) diff)
        (admittedTrails (normalizeTrailName name) diff trails) none 0 hle]

/-- C1 counterexample — catalog entry named `"-"`, record `"."`: both
comparison-normalize to the empty string, so the entry is admitted (exact
equality) while the exact tier missed, yet its composite score is 0 and
`match` returns no match, refuting the claim that an admitted entry is
always returned. -/
theorem admitted_zero_score_no_match :
    admittedTrails (normalizeTrailName (".".data)) none
        (parseTrails
          [⟨"way".data, 1,
            [("name".data, "-".data), ("piste:type".data, "downhill".data)],
            []⟩]) ≠ [] ∧
    matchTrail
        (parseTrails
          [⟨"way".data, 1,
            [("name".data, "-".data), ("piste:type".data, "downhill".data)],
            []⟩]) (".".data) none none = none := by
  constructor
  · decide
  · decide

/-- C1 witness — the fuzzy-tier characterization applied to the catalog
`{7, "Miami"}` and the record `"Miami Express"`, which misses the exact and
reference tiers but is admitted by substring containment. -/
theorem matchTrail_fuzzy_characterization_witness :
    ((∃ t ∈ admittedTrails (normalizeTrailName ("Miami Express".data)) none
          miamiCatalog,
        0 < fuzzyScore (normalizeTrailName ("Miami Express".data)) none t) →
      ∃ (n : Nat)
        (hn : n <
          (admittedTrails (normalizeTrailName ("Miami Express".data)) none
            miamiCatalog).length),
        matchTrail miamiCatalog ("Miami Express".data) none none =
          some ⟨(admittedTrails (normalizeTrailName ("Miami Express".data))
              none miamiCatalog)[n],
            fuzzyScore (normalizeTrailName ("Miami Express".data)) none
              (admittedTrails (normalizeTrailName ("Miami Express".data))
                none miamiCatalog)[n],
            MatchTier.Fuzzy⟩ ∧
        (∀ t ∈ admittedTrails (normalizeTrailName ("Miami Express".data)) none
            miamiCatalog,
          fuzzyScore (normalizeTrailName ("Miami Express".data)) none t ≤
            fuzzyScore (normalizeTrailName ("Miami Express".data)) none
              (admittedTrails (normalizeTrailName ("Miami Express".data))
                none miamiCatalog)[n]) ∧
        (∀ m (hm : m <
            (admittedTrails (normalizeTrailName ("Miami Express".data)) none
              miamiCatalog).length),
          m < n →
          fuzzyScore (normalizeTrailName ("Miami Express".data)) none
              (admittedTrails (normalizeTrailName ("Miami Express".data))
                none miamiCatalog)[m] <
            fuzzyScore (normalizeTrailName ("Miami Express".data)) none
              (admittedTrails (normalizeTrailName ("Miami Express".data))
                none miamiCatalog)[n])) ∧
    ((∀ t ∈ admittedTrails (normalizeTrailName ("Miami Express".data)) none
        miamiCatalog,
        fuzzyScore (normalizeTrailName ("Miami Express".data)) none t ≤ 0) →
      matchTrail miamiCatalog ("Miami Express".data) none none = none) :=
  matchTrail_fuzzy_characterization miamiCatalog ("Miami Express".data) none
    none (by decide) (by decide)

/-! The secondary-index reachability invariant. -/

/-- The invariant claimed for the built catalog: every entry reachable
through a `"ref_"`-prefixed key is also reachable, as the identical entry,
through some non-`"ref_"`-prefixed (name) key. -/
def refReachable (trails : List (Str × Trail)) : Prop :=
  ∀ k v, dlookup k trails = some v → ("ref_".data).isPrefixOf k = true →
    ∃ k', ("ref_".data).isPrefixOf k' = false ∧ dlookup k' trails = some v

/-- The name keys of the features kept by `_parse_trails`, in processing
order. -/
def keptNameKeys (es : List OSMElement) : List Str :=
  (es.filter (fun e => decide (keptWay e))).map
    (fun e => toLowerStr (trailNameOf e.tags))

theorem keptNameKeys_cons_kept (e : OSMElement) (rest : List OSMElement)
    (h : keptWay e) :
    keptNameKeys (e :: rest) =
      toLowerStr (trailNameOf e.tags) :: keptNameKeys rest := by
  simp [keptNameKeys, List.filter_cons, h]

theorem keptNameKeys_cons_not_kept (e : OSMElement) (rest : List OSMElement)
    (h : ¬ keptWay e) :
    keptNameKeys (e :: rest) = keptNameKeys rest := by
  simp [keptNameKeys, List.filter_cons, h]

theorem isRef_append (x : Str) :
    ("ref_".data).isPrefixOf ("ref_".data ++ x) = true :=
  List.isPrefixOf_iff_prefix.mpr (List.prefix_append _ _)

/-- Lookup into the accumulator after processing a kept, ref-carrying
feature. -/
theorem dlookup_parseStep_kept_ref (d : List (Str × Trail)) (e : OSMElement)
    (hk : keptWay e) (hr : (trailInfoOf e).ref ≠ []) (k : Str) :
    dlookup k (parseStep d e) =
      (if k = "ref_".data ++ (trailInfoOf e).ref then some (trailInfoOf e)
       else if k = toLowerStr (trailNameOf e.tags) then some (trailInfoOf e)
       else dlookup k d) := by
  rw [parseStep_kept d e hk, if_pos hr,
    show toLowerStr (trailInfoOf e).name = toLowerStr (trailNameOf e.tags)
      from rfl]
  by_cases h1 : k = "ref_".data ++ (trailInfoOf e).ref
  · rw [if_pos h1, h1, dlookup_dinsert_self]
  · rw [if_neg h1, dlookup_dinsert_ne h1]
    by_cases h2 : k = toLowerStr (trailNameOf e.tags)
    · rw [if_pos h2, h2, dlookup_dinsert_self]
    · rw [if_neg h2, dlookup_dinsert_ne h2]

/-- Lookup into the accumulator after processing a kept feature without a
ref. -/
theorem dlookup_parseStep_kept_noref (d : List (Str × Trail))
    (e : OSMElement) (hk : keptWay e) (hr : ¬ (trailInfoOf e).ref ≠ [])
    (k : Str) :
    dlookup k (parseStep d e) =
      (if k = toLowerStr (trailNameOf e.tags) then some (trailInfoOf e)
       else dlookup k d) := by
  rw [parseStep_kept d e hk, if_neg hr,
    show toLowerStr (trailInfoOf e).name = toLowerStr (trailNameOf e.tags)
      from rfl]
  by_cases h2 : k = toLowerStr (trailNameOf e.tags)
  · rw [if_pos h2, h2, dlookup_dinsert_self]
  · rw [if_neg h2, dlookup_dinsert_ne h2]

/-- Induction workhorse for the amended C4: processing features whose name
keys are pairwise distinct and never `"ref_"`-prefixed, and never collide
with a name key already in the accumulator, preserves the reachability
invariant. -/
theorem parse_inv_aux :
    ∀ (es : List OSMElement) (d : List (Str × Trail)),
      refReachable d →
      (∀ k v, dlookup k d = some v → ("ref_".data).isPrefixOf k = false →
        k ∉ keptNameKeys es) →
      (keptNameKeys es).Nodup →
      (∀ key ∈ keptNameKeys es, ("ref_".data).isPrefixOf key = false) →
      refReachable (es.foldl parseStep d) := by
  intro es
  induction es with
  | nil => intro d hinv _ _ _; exact hinv
  | cons e rest ih =>
    intro d hinv hfresh hnodup hnoref
    rw [List.foldl_cons]
    by_cases hk : keptWay e
    · rw [keptNameKeys_cons_kept e rest hk] at hfresh hnodup hnoref
      have hnkref :
          ("ref_".data).isPrefixOf (toLowerStr (trailNameOf e.tags)) = false :=
        hnoref _ (List.mem_cons_self _ _)
      have hnknotin : toLowerStr (trailNameOf e.tags) ∉ keptNameKeys rest :=
        (List.nodup_cons.mp hnodup).1
      by_cases hr : (trailInfoOf e).ref ≠ []
      · have hrkref : ("ref_".data).isPrefixOf
            ("ref_".data ++ (trailInfoOf e).ref) = true := isRef_append _
        have hnkrk : toLowerStr (trailNameOf e.tags) ≠
            "ref_".data ++ (trailInfoOf e).ref := by
          intro hh
          rw [hh, hrkref] at hnkref
          exact Bool.noConfusion hnkref
        have hlook := dlookup_parseStep_kept_ref d e hk hr
        apply ih (parseStep d e)
        · intro k v hkv href
          rw [hlook k] at hkv
          by_cases h1 : k = "ref_".data ++ (trailInfoOf e).ref
          · rw [if_pos h1] at hkv
            refine ⟨toLowerStr (trailNameOf e.tags), hnkref, ?_⟩
            rw [hlook _, if_neg hnkrk, if_pos rfl]
            exact hkv
          · rw [if_neg h1] at hkv
            by_cases h2 : k = toLowerStr (trailNameOf e.tags)
            · rw [h2, hnkref] at href
              exact Bool.noConfusion href
            · rw [if_neg h2] at hkv
              obtain ⟨k', hk'ref, hk'look⟩ := hinv k v hkv href
              have hk'rk : k' ≠ "ref_".data ++ (trailInfoOf e).ref := by
                intro hh
                rw [hh, hrkref] at hk'ref
                exact Bool.noConfusion hk'ref
              have hk'nk : k' ≠ toLowerStr (trailNameOf e.tags) := by
                intro hh
                have := hfresh k' v hk'look hk'ref
                rw [hh] at this
                exact this (List.mem_cons_self _ _)
              refine ⟨k', hk'ref, ?_⟩
              rw [hlook k', if_neg hk'rk, if_neg hk'nk]
              exact hk'look
        · intro k v hkv href
          rw [hlook k] at hkv
          by_cases h1 : k = "ref_".data ++ (trailInfoOf e).ref
          · rw [h1, hrkref] at href
            exact Bool.noConfusion href
          · rw [if_neg h1] at hkv
            by_cases h2 : k = toLowerStr (trailNameOf e.tags)
            · rw [h2]; exact hnknotin
            · rw [if_neg h2] at hkv
              intro hmem
              exact hfresh k v hkv href (List.mem_cons_of_mem _ hmem)
        · exact (List.nodup_cons.mp hnodup).2
        · intro key hkey; exact hnoref key (List.mem_cons_of_mem _ hkey)
      · have hlook := dlookup_parseStep_kept_noref d e hk hr
        apply ih (parseStep d e)
        · intro k v hkv href
          rw [hlook k] at hkv
          by_cases h2 : k = toLowerStr (trailNameOf e.tags)
          · rw [h2, hnkref] at href
            exact Bool.noConfusion href
          · rw [if_neg h2] at hkv
            obtain ⟨k', hk'ref, hk'look⟩ := hinv k v hkv href
            have hk'nk : k' ≠ toLowerStr (trailNameOf e.tags) := by
              intro hh
              have := hfresh k' v hk'look hk'ref
              rw [hh] at this
              exact this (List.mem_cons_self _ _)
            refine ⟨k', hk'ref, ?_⟩
            rw [hlook k', if_neg hk'nk]
            exact hk'look
        · intro k v hkv href
          rw [hlook k] at hkv
          by_cases h2 : k = toLowerStr (trailNameOf e.tags)
          · rw [h2]; exact hnknotin
          · rw [if_neg h2] at hkv
            intro hmem
            exact hfresh k v hkv href (List.mem_cons_of_mem _ hmem)
        · exact (List.nodup_cons.mp hnodup).2
        · intro key hkey; exact hnoref key (List.mem_cons_of_mem _ hkey)
    · rw [parseStep_not_kept d e hk]
      rw [keptNameKeys_cons_not_kept e rest hk] at hfresh hnodup hnoref
      exact ih d hinv hfresh hnodup hnoref

/-- C4 (corrected) — the reachability invariant holds for every feature
sequence in which the kept features' name keys are pairwise distinct and no
name key is itself `"ref_"`-prefixed; a sequence in which a later feature
overwrites an earlier ref-carrying feature's name key violates the
invariant (see the counterexample), so the claim's "including overwrite
sequences" clause is dropped. -/
theorem parseTrails_refReachable (es : List OSMElement)
    (hnodup : (keptNameKeys es).Nodup)
    (hnoref : ∀ key ∈ keptNameKeys es,
      ("ref_".data).isPrefixOf key = false) :
    refReachable (parseTrails es) := by
  apply parse_inv_aux es []
  · intro k v h
    exact absurd h (by simp [dlookup])
  · intro k v h
    exact absurd h (by simp [dlookup])
  · exact hnodup
  · exact hnoref

/-- The overwrite counterexample's first feature: name `"X"`, ref `"1"`. -/
def overwriteA : OSMElement :=
  ⟨"way".data, 1,
    [("name".data, "X".data), ("piste:type".data, "downhill".data),
     ("ref".data, "1".data)], []⟩

/-- The overwrite counterexample's second feature: the same name `"X"`, no
ref. -/
def overwriteB : OSMElement :=
  ⟨"way".data, 2,
    [("name".data, "X".data), ("piste:type".data, "downhill".data)], []⟩

/-- C4 witness — the amended invariant theorem applied to the singleton
sequence `[overwriteA]`, whose only name key is `"x"`. -/
theorem parseTrails_refReachable_witness :
    refReachable (parseTrails [overwriteA]) :=
  parseTrails_refReachable [overwriteA] (by decide) (by decide)

/-- C4 counterexample — after `overwriteB` overwrites `overwriteA`'s name
key `"x"` (last-write-wins), the entry still reachable through the
secondary key `"ref_1"` is reachable through no name key, refuting the
claim that the invariant holds for every sequence including overwrites. -/
theorem refReachable_violated_by_overwrite :
    ¬ refReachable (parseTrails [overwriteA, overwriteB]) := by
  intro h
  obtain ⟨k', hk'ref, hk'look⟩ :=
    h ("ref_1".data) (trailInfoOf overwriteA) (by decide) (by decide)
  have hcat : parseTrails [overwriteA, overwriteB] =
      [("x".data, trailInfoOf overwriteB),
       ("ref_1".data, trailInfoOf overwriteA)] := by decide
  rw [hcat] at hk'look
  unfold dlookup at hk'look
  by_cases h1 : ("x".data : Str) = k'
  · rw [if_pos h1] at hk'look
    have := Option.some.inj hk'look
    exact absurd (congrArg Trail.osm_id this) (by decide)
  · rw [if_neg h1] at hk'look
    unfold dlookup at hk'look
    by_cases h2 : ("ref_1".data : Str) = k'
    · rw [← h2] at hk'ref
      exact absurd hk'ref (by decide)
    · rw [if_neg h2] at hk'look
      unfold dlookup at hk'look
      exact Option.noConfusion hk'look

/-! Length analysis of the record-key normalization (C10). -/

theorem contains_iff_memC {l : List Char} {a : Char} :
    l.contains a = true ↔ a ∈ l :=
  List.elem_iff

theorem trimL_sublist (s : Str) : List.Sublist (trimL s) s := by
  unfold trimL
  have h2 : List.Sublist ((s.dropWhile isSpacePy).reverse.dropWhile isSpacePy)
      (s.dropWhile isSpacePy).reverse := List.dropWhile_sublist _
  have h3 : List.Sublist
      (((s.dropWhile isSpacePy).reverse.dropWhile isSpacePy).reverse)
      (s.dropWhile isSpacePy) := by
    have := List.reverse_sublist.mpr h2
    simpa using this
  exact h3.trans (List.dropWhile_sublist _)

theorem trimL_length_le (s : Str) : (trimL s).length ≤ s.length :=
  (trimL_sublist s).length_le

theorem trimL_eq_or_lt (s : Str) :
    trimL s = s ∨ (trimL s).length < s.length := by
  rcases Nat.lt_or_ge (trimL s).length s.length with h | h
  · exact Or.inr h
  · exact Or.inl ((trimL_sublist s).eq_of_length_le h)

theorem stripNumQual_eq_or_lt (s : Str) :
    stripNumQual s = s ∨ (stripNumQual s).length < s.length := by
  simp only [stripNumQual]
  split
  · exact Or.inl rfl
  · rename_i h
    push_neg at h
    obtain ⟨hds, hws⟩ := h
    right
    have hds1 : 1 ≤ (s.reverse.takeWhile Char.isDigit).length :=
      List.length_pos.mpr hds
    have hle : (s.reverse.takeWhile Char.isDigit).length ≤ s.length := by
      have := (List.takeWhile_sublist (l := s.reverse) Char.isDigit).length_le
      simpa using this
    simp only [List.length_reverse, List.length_drop]
    omega

theorem stripRomanQual_eq_or_lt (cls : Char → Bool) (s : Str) :
    stripRomanQual cls s = s ∨ (stripRomanQual cls s).length < s.length := by
  simp only [stripRomanQual]
  split
  · exact Or.inl rfl
  · rename_i h
    push_neg at h
    obtain ⟨hds, hws⟩ := h
    right
    have hds1 : 1 ≤ (s.reverse.takeWhile cls).length := List.length_pos.mpr hds
    have hle : (s.reverse.takeWhile cls).length ≤ s.length := by
      have := (List.takeWhile_sublist (l := s.reverse) cls).length_le
      simpa using this
    simp only [List.length_reverse, List.length_drop]
    omega

theorem stripBisTer_eq_or_lt (s : Str) :
    stripBisTer s = s ∨ (stripBisTer s).length < s.length := by
  simp only [stripBisTer]
  split
  · rename_i h
    split
    · exact Or.inl rfl
    · rename_i hws
      right
      have hlen3 : 3 ≤ s.length := by
        have h3 : ((s.reverse.take 3).map toLowerPy).length = 3 := by
          rcases h with h | h <;> rw [h] <;> rfl
        simp only [List.length_map, List.length_take] at h3
        simp only [List.length_reverse] at h3 ⊢
        omega
      simp only [List.length_reverse, List.length_drop]
      omega
  · exact Or.inl rfl

theorem removeNameLead_length_le (s : Str) :
    (removeNameLead s).length ≤ s.length := by
  unfold removeNameLead
  cases hf : prefixesToRemove.find? (fun p => p.isPrefixOf (toLowerStr s)) with
  | none => simp
  | some q => simp [List.length_drop]

theorem removeNameLead_lt (s : Str)
    (h : prefixesToRemove.any (fun p => p.isPrefixOf (toLowerStr s)) = true) :
    (removeNameLead s).length < s.length := by
  obtain ⟨p, hp, hpred⟩ := List.any_eq_true.mp h
  rcases hf : prefixesToRemove.find? (fun q => q.isPrefixOf (toLowerStr s)) with
    _ | q
  · rw [List.find?_eq_none] at hf
    exact absurd hpred (hf p hp)
  · have hqmem := List.mem_of_find?_eq_some hf
    have hqpred := List.find?_some hf
    have hq1 : 1 ≤ q.length := by
      have hall : ∀ x ∈ prefixesToRemove, 1 ≤ x.length := by decide
      exact hall q hqmem
    have hqle : q.length ≤ s.length := by
      have hpre := (List.isPrefixOf_iff_prefix.mp hqpred).length_le
      simpa [toLowerStr] using hpre
    unfold removeNameLead
    rw [hf]
    simp only [List.length_drop]
    omega

theorem takeWhile_pipe_lt : ∀ (s : Str), '|' ∈ s →
    (s.takeWhile (fun c => !(c == '|'))).length < s.length := by
  intro s
  induction s with
  | nil => intro h; exact absurd h (List.not_mem_nil _)
  | cons c rest ih =>
    intro h
    by_cases hc : c = '|'
    · subst hc
      simp [List.takeWhile_cons]
    · have hrest : '|' ∈ rest := by
        rcases List.mem_cons.mp h with hh | hh
        · exact absurd hh.symm hc
        · exact hh
      rw [List.takeWhile_cons, if_pos (by simp [hc])]
      simpa using Nat.succ_lt_succ (ih hrest)

/-- The `_normalize_trail_name` pipeline spelled out as a composition. -/
theorem normalizeTrailName_eq (name : Str) :
    normalizeTrailName name =
      trimL (stripBisTer (stripRomanQual isRomanU (stripNumQual
        (removeNameLead
          (if name.contains '|' then
            trimL (name.takeWhile (fun c => !(c == '|')))
           else trimL name))))) := rfl

theorem stripNumQual_length_le (s : Str) :
    (stripNumQual s).length ≤ s.length := by
  rcases stripNumQual_eq_or_lt s with h | h
  · rw [h]
  · omega

theorem stripRomanQual_length_le (cls : Char → Bool) (s : Str) :
    (stripRomanQual cls s).length ≤ s.length := by
  rcases stripRomanQual_eq_or_lt cls s with h | h
  · rw [h]
  · omega

theorem stripBisTer_length_le (s : Str) :
    (stripBisTer s).length ≤ s.length := by
  rcases stripBisTer_eq_or_lt s with h | h
  · rw [h]
  · omega

/-- A raw name that begins with a listed prefix or ends with a strippable
trailing qualifier strictly shrinks under `_normalize_trail_name`. -/
theorem normalizeTrailName_length_lt (raw : Str)
    (hcond :
      prefixesToRemove.any (fun p => p.isPrefixOf (toLowerStr raw)) = true ∨
      stripBisTer (stripRomanQual isRomanU (stripNumQual raw)) ≠ raw) :
    (normalizeTrailName raw).length < raw.length := by
  rw [normalizeTrailName_eq]
  -- length bound for the qualifier-and-trim tail applied to any string
  have htail : ∀ x : Str,
      (trimL (stripBisTer (stripRomanQual isRomanU (stripNumQual x)))).length ≤
        x.length := by
    intro x
    have h4 := trimL_length_le
      (stripBisTer (stripRomanQual isRomanU (stripNumQual x)))
    have h3 := stripBisTer_length_le (stripRomanQual isRomanU (stripNumQual x))
    have h2 := stripRomanQual_length_le isRomanU (stripNumQual x)
    have h1 := stripNumQual_length_le x
    omega
  by_cases hpipe : raw.contains '|' = true
  · rw [if_pos hpipe]
    have h0 := takeWhile_pipe_lt raw (contains_iff_memC.mp hpipe)
    have h1 := trimL_length_le (raw.takeWhile (fun c => !(c == '|')))
    have h2 := removeNameLead_length_le
      (trimL (raw.takeWhile (fun c => !(c == '|'))))
    have h3 := htail
      (removeNameLead (trimL (raw.takeWhile (fun c => !(c == '|')))))
    omega
  · rw [if_neg hpipe]
    rcases trimL_eq_or_lt raw with htr | htr
    · rw [htr]
      rcases hfind : prefixesToRemove.find?
          (fun p => p.isPrefixOf (toLowerStr raw)) with _ | q
      · have hlead : removeNameLead raw = raw := by
          unfold removeNameLead
          rw [hfind]
        rw [hlead]
        rcases hcond with hcond | hcond
        · obtain ⟨p, hp, hpred⟩ := List.any_eq_true.mp hcond
          rw [List.find?_eq_none] at hfind
          exact absurd hpred (hfind p hp)
        · rcases stripNumQual_eq_or_lt raw with h1 | h1
          · rw [h1]
            rcases stripRomanQual_eq_or_lt isRomanU raw with h2 | h2
            · rw [h2]
              rcases stripBisTer_eq_or_lt raw with h3 | h3
              · exact absurd (by rw [h1, h2, h3]) hcond
              · have h4 := trimL_length_le (stripBisTer raw)
                omega
            · have h3 := stripBisTer_length_le (stripRomanQual isRomanU raw)
              have h4 := trimL_length_le
                (stripBisTer (stripRomanQual isRomanU raw))
              omega
          · have h2 := stripRomanQual_length_le isRomanU (stripNumQual raw)
            have h3 := stripBisTer_length_le
              (stripRomanQual isRomanU (stripNumQual raw))
            have h4 := trimL_length_le
              (stripBisTer (stripRomanQual isRomanU (stripNumQual raw)))
            omega
      · have hqmem := List.mem_of_find?_eq_some hfind
        have hqpred := List.find?_some hfind
        have hlead : (removeNameLead raw).length < raw.length :=
          removeNameLead_lt raw (List.any_eq_true.mpr ⟨q, hqmem, hqpred⟩)
        have := htail (removeNameLead raw)
        omega
    · have h2 := removeNameLead_length_le (trimL raw)
      have h3 := htail (removeNameLead (trimL raw))
      omega

/-- C10 (corrected) — for a single-entry catalog built from a kept feature
whose raw name begins with a listed prefix or ends with a strippable
trailing qualifier, the record key obtained by normalizing that same raw
name differs from the entry's primary key (the raw name lowercased): an
exact-tier hit is then possible only through the entry's reference-prefixed
key, and otherwise the record can match only through the reference or fuzzy
tiers. -/
theorem exact_tier_key_mismatch (f : OSMElement) (raw : Str)
    (hk : keptWay f) (hname : trailNameOf f.tags = raw)
    (hcond :
      prefixesToRemove.any (fun p => p.isPrefixOf (toLowerStr raw)) = true ∨
      stripBisTer (stripRomanQual isRomanU (stripNumQual raw)) ≠ raw) :
    trimL (toLowerStr (normalizeTrailName raw)) ≠ toLowerStr raw ∧
    (∀ r, matchTrail (parseTrails [f]) raw none none = some r →
      r.tier = MatchTier.Exact →
      (trailInfoOf f).ref ≠ [] ∧
      trimL (toLowerStr (normalizeTrailName raw)) =
        "ref_".data ++ (trailInfoOf f).ref) := by
  have hkeylt :
      (trimL (toLowerStr (normalizeTrailName raw))).length < raw.length := by
    have h1 := trimL_length_le (toLowerStr (normalizeTrailName raw))
    have h2 : (toLowerStr (normalizeTrailName raw)).length =
        (normalizeTrailName raw).length := List.length_map _ _
    have h3 := normalizeTrailName_length_lt raw hcond
    omega
  have hkeyne : trimL (toLowerStr (normalizeTrailName raw)) ≠ toLowerStr raw := by
    intro he
    have hlen := congrArg List.length he
    have h2 : (toLowerStr raw).length = raw.length := List.length_map _ _
    omega
  refine ⟨hkeyne, ?_⟩
  intro r hres htier
  rcases hm : dlookup (trimL (toLowerStr (normalizeTrailName raw)))
      (parseTrails [f]) with _ | t
  · have hred : matchTrail (parseTrails [f]) raw none none =
        (match fuzzyLoop (normalizeTrailName raw) none (parseTrails [f])
            none 0 with
         | (some t, bestScore) => some ⟨t, bestScore, MatchTier.Fuzzy⟩
         | (none, _) => none) := by
      simp only [matchTrail]
      rw [hm]
      rfl
    rw [hred] at hres
    rcases hfz : fuzzyLoop (normalizeTrailName raw) none (parseTrails [f])
        none 0 with ⟨b, sc⟩
    rw [hfz] at hres
    cases b with
    | some t =>
      have hrr : r = ⟨t, sc, MatchTier.Fuzzy⟩ := (Option.some.inj hres).symm
      rw [hrr] at htier
      exact MatchTier.noConfusion htier
    | none => exact Option.noConfusion hres
  · have hpt : parseTrails [f] = parseStep [] f := rfl
    by_cases hr : (trailInfoOf f).ref ≠ []
    · have hlook := dlookup_parseStep_kept_ref [] f hk hr
        (trimL (toLowerStr (normalizeTrailName raw)))
      rw [hpt, hlook] at hm
      by_cases h1 : trimL (toLowerStr (normalizeTrailName raw)) =
          "ref_".data ++ (trailInfoOf f).ref
      · exact ⟨hr, h1⟩
      · rw [if_neg h1] at hm
        by_cases h2 : trimL (toLowerStr (normalizeTrailName raw)) =
            toLowerStr (trailNameOf f.tags)
        · rw [hname] at h2
          exact absurd h2 hkeyne
        · rw [if_neg h2] at hm
          simp [dlookup] at hm
    · have hlook := dlookup_parseStep_kept_noref [] f hk hr
        (trimL (toLowerStr (normalizeTrailName raw)))
      rw [hpt, hlook] at hm
      by_cases h2 : trimL (toLowerStr (normalizeTrailName raw)) =
          toLowerStr (trailNameOf f.tags)
      · rw [hname] at h2
        exact absurd h2 hkeyne
      · rw [if_neg h2] at hm
        simp [dlookup] at hm

/-- The C10 counterexample feature: name `"La ref_1"` with ref `"1"`. -/
def refTrapFeature : OSMElement :=
  ⟨"way".data, 3,
    [("name".data, "La ref_1".data), ("piste:type".data, "downhill".data),
     ("ref".data, "1".data)], []⟩

/-- The C10 witness feature: name `"La Miami"`, no ref. -/
def laMiamiFeature : OSMElement :=
  ⟨"way".data, 4,
    [("name".data, "La Miami".data), ("piste:type".data, "downhill".data)],
    []⟩

/-- C10 counterexample — catalog entry named `"La ref_1"` (raw name begins
with the listed prefix `"la "`): a record bearing exactly the same raw name
normalizes to the key `"ref_1"` and hits the catalog's reference-prefixed
key in the exact tier, refuting the claim that such a record never hits the
exact tier. -/
theorem record_hits_exact_via_ref_key :
    (matchTrail (parseTrails [refTrapFeature]) ("La ref_1".data) none
        none).map MatchResult.tier = some MatchTier.Exact ∧
    prefixesToRemove.any
      (fun p => p.isPrefixOf (toLowerStr ("La ref_1".data))) = true := by
  constructor
  · decide
  · decide

/-- C10 witness — the key-mismatch theorem applied to the entry
`"La Miami"` and the record `"La Miami"`. -/
theorem exact_tier_key_mismatch_witness :
    trimL (toLowerStr (normalizeTrailName ("La Miami".data))) ≠
      toLowerStr ("La Miami".data) ∧
    (∀ r, matchTrail (parseTrails [laMiamiFeature]) ("La Miami".data) none
        none = some r →
      r.tier = MatchTier.Exact →
      (trailInfoOf laMiamiFeature).ref ≠ [] ∧
      trimL (toLowerStr (normalizeTrailName ("La Miami".data))) =
        "ref_".data ++ (trailInfoOf laMiamiFeature).ref) :=
  exact_tier_key_mismatch laMiamiFeature ("La Miami".data) (by decide)
    (by decide) (Or.inl (by decide))

/-! Generic list helpers for the idempotence analysis (C2). -/

theorem map_id_of {f : Char → Char} :
    ∀ {l : Str}, (∀ c ∈ l, f c = c) → l.map f = l := by
  intro l
  induction l with
  | nil => intro _; rfl
  | cons c rest ih =>
    intro h
    rw [List.map_cons, h c (List.mem_cons_self _ _),
      ih (fun d hd => h d (List.mem_cons_of_mem _ hd))]

theorem flatMap_id_of {f : Char → List Char} :
    ∀ {l : Str}, (∀ c ∈ l, f c = [c]) → l.flatMap f = l := by
  intro l
  induction l with
  | nil => intro _; rfl
  | cons c rest ih =>
    intro h
    rw [List.flatMap_cons, h c (List.mem_cons_self _ _),
      ih (fun d hd => h d (List.mem_cons_of_mem _ hd))]
    rfl

theorem mem_joinSpace {c : Char} :
    ∀ {ts : List Str}, c ∈ joinSpace ts → c = ' ' ∨ ∃ t ∈ ts, c ∈ t := by
  intro ts
  induction ts with
  | nil => intro h; exact absurd h (List.not_mem_nil _)
  | cons t rest ih =>
    intro h
    cases rest with
    | nil =>
      exact Or.inr ⟨t, List.mem_cons_self _ _, h⟩
    | cons u us =>
      rw [show joinSpace (t :: u :: us) = t ++ ' ' :: joinSpace (u :: us)
        from rfl] at h
      rcases List.mem_append.mp h with h | h
      · exact Or.inr ⟨t, List.mem_cons_self _ _, h⟩
      · rcases List.mem_cons.mp h with h | h
        · exact Or.inl h
        · rcases ih h with h | ⟨v, hv, hc⟩
          · exact Or.inl h
          · exact Or.inr ⟨v, List.mem_cons_of_mem _ hv, hc⟩

/-! Properties of `splitPy`. -/

/-- Every emitted token is non-empty. -/
theorem splitPyAux_ne_nil :
    ∀ (s acc : Str) (t : Str), t ∈ splitPyAux s acc → t ≠ [] := by
  intro s
  induction s with
  | nil =>
    intro acc t ht
    simp only [splitPyAux] at ht
    split at ht
    · exact absurd ht (List.not_mem_nil _)
    · rename_i hacc
      rw [List.mem_singleton] at ht
      subst ht
      simpa using hacc
  | cons c rest ih =>
    intro acc t ht
    simp only [splitPyAux] at ht
    split at ht
    · split at ht
      · exact ih [] t ht
      · rename_i hacc
        rcases List.mem_cons.mp ht with h | h
        · subst h; simpa using hacc
        · exact ih [] t h
    · exact ih (c :: acc) t ht

/-- Every character of every token fails `isSpacePy`, provided the
accumulator's characters do. -/
theorem splitPyAux_no_space :
    ∀ (s acc : Str), (∀ c ∈ acc, isSpacePy c = false) →
      ∀ t ∈ splitPyAux s acc, ∀ c ∈ t, isSpacePy c = false := by
  intro s
  induction s with
  | nil =>
    intro acc hacc t ht c hc
    simp only [splitPyAux] at ht
    split at ht
    · exact absurd ht (List.not_mem_nil _)
    · rw [List.mem_singleton] at ht
      subst ht
      exact hacc c (List.mem_reverse.mp hc)
  | cons a rest ih =>
    intro acc hacc t ht c hc
    simp only [splitPyAux] at ht
    split at ht
    · split at ht
      · exact ih [] (by simp) t ht c hc
      · rcases List.mem_cons.mp ht with h | h
        · subst h
          exact hacc c (List.mem_reverse.mp hc)
        · exact ih [] (by simp) t h c hc
    · rename_i ha
      refine ih (a :: acc) ?_ t ht c hc
      intro d hd
      rcases List.mem_cons.mp hd with h | h
      · subst h
        exact Bool.of_not_eq_true ha
      · exact hacc d h

/-- Every character of every token comes from the input or the
accumulator. -/
theorem splitPyAux_mem :
    ∀ (s acc : Str) (t : Str), t ∈ splitPyAux s acc → ∀ c ∈ t,
      c ∈ s ∨ c ∈ acc := by
  intro s
  induction s with
  | nil =>
    intro acc t ht c hc
    simp only [splitPyAux] at ht
    split at ht
    · exact absurd ht (List.not_mem_nil _)
    · rw [List.mem_singleton] at ht
      subst ht
      exact Or.inr (List.mem_reverse.mp hc)
  | cons a rest ih =>
    intro acc t ht c hc
    simp only [splitPyAux] at ht
    split at ht
    · split at ht
      · rcases ih [] t ht c hc with h | h
        · exact Or.inl (List.mem_cons_of_mem _ h)
        · exact absurd h (List.not_mem_nil _)
      · rcases List.mem_cons.mp ht with h | h
        · subst h
          exact Or.inr (List.mem_reverse.mp hc)
        · rcases ih [] t h c hc with h | h
          · exact Or.inl (List.mem_cons_of_mem _ h)
          · exact absurd h (List.not_mem_nil _)
    · rcases ih (a :: acc) t ht c hc with h | h
      · exact Or.inl (List.mem_cons_of_mem _ h)
      · rcases List.mem_cons.mp h with h | h
        · exact Or.inl (h ▸ List.mem_cons_self _ _)
        · exact Or.inr h

theorem splitPy_ne_nil (s : Str) : ∀ t ∈ splitPy s, t ≠ [] :=
  fun t ht => splitPyAux_ne_nil s [] t ht

theorem splitPy_no_space (s : Str) :
    ∀ t ∈ splitPy s, ∀ c ∈ t, isSpacePy c = false :=
  fun t ht c hc => splitPyAux_no_space s [] (by simp) t ht c hc

/-- Scanning a space-free chunk just accumulates it. -/
theorem splitPyAux_chunk :
    ∀ (t : Str), (∀ c ∈ t, isSpacePy c = false) →
      ∀ (rest acc : Str),
        splitPyAux (t ++ rest) acc = splitPyAux rest (t.reverse ++ acc) := by
  intro t
  induction t with
  | nil => intro _ rest acc; rfl
  | cons c tc ih =>
    intro h rest acc
    rw [List.cons_append]
    simp only [splitPyAux]
    rw [if_neg (by rw [h c (List.mem_cons_self _ _)]; simp)]
    rw [ih (fun d hd => h d (List.mem_cons_of_mem _ hd)) rest (c :: acc)]
    congr 1
    simp

/-- `joinSpace` of a non-empty token list is non-empty when its first token
is. -/
theorem joinSpace_ne_nil (t : Str) (ts : List Str) (ht : t ≠ []) :
    joinSpace (t :: ts) ≠ [] := by
  cases ts with
  | nil => simpa [joinSpace] using ht
  | cons u us =>
    rw [show joinSpace (t :: u :: us) = t ++ ' ' :: joinSpace (u :: us)
      from rfl]
    simp

/-- Splitting undoes joining for lists of non-empty, space-free tokens. -/
theorem splitPy_joinSpace :
    ∀ (ts : List Str), (∀ t ∈ ts, t ≠ []) →
      (∀ t ∈ ts, ∀ c ∈ t, isSpacePy c = false) →
      splitPy (joinSpace ts) = ts := by
  intro ts
  induction ts with
  | nil => intro _ _; rfl
  | cons t rest ih =>
    intro hne hsp
    have hts : t ≠ [] := hne t (List.mem_cons_self _ _)
    have htsp : ∀ c ∈ t, isSpacePy c = false :=
      hsp t (List.mem_cons_self _ _)
    cases rest with
    | nil =>
      show splitPy t = [t]
      unfold splitPy
      rw [show t = t ++ ([] : Str) from by simp, splitPyAux_chunk t htsp []]
      simp only [splitPyAux, List.append_nil]
      rw [if_neg (by simpa using hts)]
      simp
    | cons u us =>
      rw [show joinSpace (t :: u :: us) = t ++ ' ' :: joinSpace (u :: us)
        from rfl]
      unfold splitPy
      rw [splitPyAux_chunk t htsp (' ' :: joinSpace (u :: us)) []]
      simp only [splitPyAux]
      rw [if_pos (by decide)]
      rw [if_neg (by simpa using hts)]
      rw [List.append_nil, List.reverse_reverse]
      have := ih (fun v hv => hne v (List.mem_cons_of_mem _ hv))
        (fun v hv => hsp v (List.mem_cons_of_mem _ hv))
      unfold splitPy at this
      rw [this]

/-- The front of a join of non-empty space-free tokens is space-free. -/
theorem dropWhile_joinSpace (ts : List Str) (hne : ∀ t ∈ ts, t ≠ [])
    (hsp : ∀ t ∈ ts, ∀ c ∈ t, isSpacePy c = false) :
    (joinSpace ts).dropWhile isSpacePy = joinSpace ts := by
  cases ts with
  | nil => rfl
  | cons t rest =>
    obtain ⟨c, tc, rfl⟩ : ∃ c tc, t = c :: tc := by
      cases t with
      | nil => exact absurd rfl (hne [] (List.mem_cons_self _ _))
      | cons c tc => exact ⟨c, tc, rfl⟩
    have hc : isSpacePy c = false :=
      hsp _ (List.mem_cons_self _ _) c (List.mem_cons_self _ _)
    cases rest with
    | nil =>
      show List.dropWhile isSpacePy (c :: tc) = c :: tc
      rw [List.dropWhile_cons, hc]
      simp
    | cons u us =>
      rw [show joinSpace ((c :: tc) :: u :: us) =
          (c :: tc) ++ ' ' :: joinSpace (u :: us) from rfl,
        List.cons_append, List.dropWhile_cons, hc]
      simp

/-- The reverse of a join of non-empty space-free tokens starts with a
non-space character (or is empty). -/
theorem reverse_joinSpace_head :
    ∀ (ts : List Str), (∀ t ∈ ts, t ≠ []) →
      (∀ t ∈ ts, ∀ c ∈ t, isSpacePy c = false) →
      (joinSpace ts).reverse = [] ∨
        ∃ d r, (joinSpace ts).reverse = d :: r ∧ isSpacePy d = false := by
  intro ts
  induction ts with
  | nil => intro _ _; exact Or.inl rfl
  | cons t rest ih =>
    intro hne hsp
    have hts : t ≠ [] := hne t (List.mem_cons_self _ _)
    cases rest with
    | nil =>
      right
      show ∃ d r, (t : Str).reverse = d :: r ∧ isSpacePy d = false
      cases htr : t.reverse with
      | nil => exact absurd (by simpa using htr) hts
      | cons d r =>
        refine ⟨d, r, rfl, ?_⟩
        apply hsp t (List.mem_cons_self _ _)
        rw [← List.mem_reverse, htr]
        exact List.mem_cons_self _ _
    | cons u us =>
      right
      rw [show joinSpace (t :: u :: us) = t ++ ' ' :: joinSpace (u :: us)
        from rfl, List.reverse_append]
      rcases ih (fun v hv => hne v (List.mem_cons_of_mem _ hv))
          (fun v hv => hsp v (List.mem_cons_of_mem _ hv)) with h | ⟨d, r, hdr, hd⟩
      · exfalso
        exact joinSpace_ne_nil u us (hne u (by simp)) (by simpa using h)
      · refine ⟨d, r ++ ' ' :: t.reverse, ?_, hd⟩
        rw [List.reverse_cons, hdr]
        simp

/-- Joins of non-empty space-free token lists are already stripped. -/
theorem trimL_joinSpace (ts : List Str) (hne : ∀ t ∈ ts, t ≠ [])
    (hsp : ∀ t ∈ ts, ∀ c ∈ t, isSpacePy c = false) :
    trimL (joinSpace ts) = joinSpace ts := by
  unfold trimL
  rw [dropWhile_joinSpace ts hne hsp]
  rcases reverse_joinSpace_head ts hne hsp with h | ⟨d, r, hdr, hd⟩
  · rw [h]
    simpa using congrArg List.reverse h
  · rw [hdr, List.dropWhile_cons, hd]
    simp only [Bool.false_eq_true, if_false]
    rw [← hdr]
    simp

/-! Character-level stages are stable on their own output. -/

/-- A character unaffected by every character-level stage of
`_normalize_for_comparison`. -/
def charSettled (c : Char) : Prop :=
  toLowerPy c = c ∧ charLig c = [c] ∧ charAcc c = [c] ∧
    isQuoteChar c = false ∧ isDashChar c = false

theorem toLowerPy_idem (g : Char) : toLowerPy (toLowerPy g) = toLowerPy g := by
  rcases hf : lowerTable.find? (fun p => p.1 == g) with _ | pr
  · have h1 : toLowerPy g = g := by unfold toLowerPy; rw [hf]; rfl
    rw [h1, h1]
  · have h1 : toLowerPy g = pr.2 := by unfold toLowerPy; rw [hf]; rfl
    have hmem := List.mem_of_find?_eq_some hf
    have hall : ∀ p ∈ lowerTable, toLowerPy p.2 = p.2 := by decide
    rw [h1]
    exact hall pr hmem

theorem charLig_settled (f : Char) (hf : toLowerPy f = f) :
    ∀ e ∈ charLig f, toLowerPy e = e ∧ charLig e = [e] := by
  by_cases h1 : f = 'œ'
  · subst h1
    intro e he
    rw [show charLig 'œ' = ['o', 'e'] from by decide] at he
    rcases List.mem_cons.mp he with rfl | he
    · exact ⟨by decide, by decide⟩
    · rw [List.mem_singleton] at he
      subst he
      exact ⟨by decide, by decide⟩
  · by_cases h2 : f = 'æ'
    · subst h2
      intro e he
      rw [show charLig 'æ' = ['a', 'e'] from by decide] at he
      rcases List.mem_cons.mp he with rfl | he
      · exact ⟨by decide, by decide⟩
      · rw [List.mem_singleton] at he
        subst he
        exact ⟨by decide, by decide⟩
    · by_cases h3 : f = 'ç'
      · subst h3
        intro e he
        rw [show charLig 'ç' = ['c'] from by decide, List.mem_singleton] at he
        subst he
        exact ⟨by decide, by decide⟩
      · by_cases h4 : f = 'ñ'
        · subst h4
          intro e he
          rw [show charLig 'ñ' = ['n'] from by decide,
            List.mem_singleton] at he
          subst he
          exact ⟨by decide, by decide⟩
        · have hid : charLig f = [f] := by
            simp only [charLig, h1, h2, h3, h4, if_false]
          intro e he
          rw [hid, List.mem_singleton] at he
          subst he
          exact ⟨hf, hid⟩

theorem charAcc_settled (e : Char) (hl : toLowerPy e = e)
    (hg : charLig e = [e]) :
    ∀ d ∈ charAcc e, toLowerPy d = d ∧ charLig d = [d] ∧ charAcc d = [d] := by
  rcases hf : accentTable.find? (fun p => p.1 == e) with _ | pr
  · have h1 : charAcc e = [e] := by unfold charAcc; rw [hf]; rfl
    rw [h1]
    intro d hd
    rw [List.mem_singleton] at hd
    subst hd
    exact ⟨hl, hg, h1⟩
  · have h1 : charAcc e = pr.2 := by unfold charAcc; rw [hf]; rfl
    have hmem := List.mem_of_find?_eq_some hf
    have hkey : pr.1 = e := by
      have := List.find?_some hf
      simpa using this
    have hall : ∀ p ∈ accentTable, toLowerPy p.1 = p.1 →
        ∀ d ∈ p.2, toLowerPy d = d ∧ charLig d = [d] ∧ charAcc d = [d] := by
      decide
    rw [h1]
    exact hall pr hmem (by rw [hkey]; exact hl)

theorem sub_settled (d : Char)
    (hd : toLowerPy d = d ∧ charLig d = [d] ∧ charAcc d = [d]) :
    charSettled ((fun c => if isDashChar c then ' ' else c)
      ((fun c => if isQuoteChar c then ' ' else c) d)) := by
  by_cases hq : isQuoteChar d = true
  · simp only [hq, if_true]
    rw [if_neg (by decide : ¬ isDashChar ' ' = true)]
    exact ⟨rfl, rfl, rfl, rfl, rfl⟩
  · simp only
    rw [if_neg hq]
    by_cases hda : isDashChar d = true
    · rw [if_pos hda]
      exact ⟨rfl, rfl, rfl, rfl, rfl⟩
    · rw [if_neg hda]
      exact ⟨hd.1, hd.2.1, hd.2.2, Bool.of_not_eq_true hq,
        Bool.of_not_eq_true hda⟩

/-- `_normalize_for_comparison` spelled out as a composition. -/
theorem normalizeForComparison_eq (name : Str) :
    normalizeForComparison name =
      joinSpace (splitPy (stripRomanQual isRomanL (stripNumQual
        (List.filter (fun c => isWordPy c || isSpacePy c)
          (removeArticles
            (List.map (fun c => if isDashChar c then ' ' else c)
              (List.map (fun c => if isQuoteChar c then ' ' else c)
                (List.flatMap
                  (List.flatMap (trimL (toLowerStr name)) charLig)
                  charAcc)))))))) := rfl

/-- Every character reaching the article stage is settled. -/
theorem nfc_prefix_settled (x : Str) :
    ∀ c ∈ List.map (fun c => if isDashChar c then ' ' else c)
        (List.map (fun c => if isQuoteChar c then ' ' else c)
          (List.flatMap (List.flatMap (trimL (toLowerStr x)) charLig)
            charAcc)),
      charSettled c := by
  intro c hc
  rw [List.mem_map] at hc
  obtain ⟨c1, hc1, rfl⟩ := hc
  rw [List.mem_map] at hc1
  obtain ⟨d, hd, rfl⟩ := hc1
  rw [List.mem_flatMap] at hd
  obtain ⟨e, he, hd2⟩ := hd
  rw [List.mem_flatMap] at he
  obtain ⟨f, hf, he2⟩ := he
  have hflow : toLowerPy f = f := by
    have hmem : f ∈ toLowerStr x := (trimL_sublist _).subset hf
    rw [toLowerStr, List.mem_map] at hmem
    obtain ⟨g, _, rfl⟩ := hmem
    exact toLowerPy_idem g
  have he3 := charLig_settled f hflow e he2
  have hd3 := charAcc_settled e he3.1 he3.2 d hd2
  exact sub_settled d hd3

/-- Characters of `replAux` output come from the input or the
replacement. -/
theorem replAux_mem (pat rep : Str) :
    ∀ (s : Str) (skip : Nat) (c : Char), c ∈ replAux pat rep s skip →
      c ∈ s ∨ c ∈ rep := by
  intro s
  induction s with
  | nil => intro skip c hc; exact absurd hc (List.not_mem_nil _)
  | cons a rest ih =>
    intro skip c hc
    cases skip with
    | succ n =>
      rcases ih n c hc with h | h
      · exact Or.inl (List.mem_cons_of_mem _ h)
      · exact Or.inr h
    | zero =>
      simp only [replAux] at hc
      split at hc
      · rcases List.mem_append.mp hc with h | h
        · exact Or.inr h
        · rcases ih _ c h with h | h
          · exact Or.inl (List.mem_cons_of_mem _ h)
          · exact Or.inr h
      · rcases List.mem_cons.mp hc with h | h
        · exact Or.inl (h ▸ List.mem_cons_self _ _)
        · rcases ih 0 c h with h | h
          · exact Or.inl (List.mem_cons_of_mem _ h)
          · exact Or.inr h

/-- The article-removal loop preserves any character predicate that holds
of the input and of the space character. -/
theorem removeArticles_chars (Q : Char → Prop) (hspQ : Q ' ') :
    ∀ (arts : List Str) (x : Str), (∀ c ∈ x, Q c) →
      ∀ c ∈ arts.foldl
        (fun name article =>
          replaceAllL (' ' :: article) [' ']
            (if article.isPrefixOf name then name.drop article.length
             else name)) x, Q c := by
  intro arts
  induction arts with
  | nil => intro x hx c hc; exact hx c hc
  | cons a rest ih =>
    intro x hx c hc
    rw [List.foldl_cons] at hc
    refine ih _ ?_ c hc
    intro d hd
    rcases replAux_mem (' ' :: a) [' '] _ 0 d hd with h | h
    · split at h
      · exact hx d ((List.drop_sublist _ _).subset h)
      · exact hx d h
    · rw [List.mem_singleton] at h
      subst h
      exact hspQ

theorem removeArticles_chars' (Q : Char → Prop) (hspQ : Q ' ') (x : Str)
    (hx : ∀ c ∈ x, Q c) : ∀ c ∈ removeArticles x, Q c :=
  removeArticles_chars Q hspQ articlesList x hx

theorem stripNumQual_subset (s : Str) : ∀ c ∈ stripNumQual s, c ∈ s := by
  intro c hc
  simp only [stripNumQual] at hc
  split at hc
  · exact hc
  · rw [List.mem_reverse] at hc
    have h1 := (List.drop_sublist _ _).subset hc
    have h2 := (List.drop_sublist _ _).subset h1
    exact List.mem_reverse.mp h2

theorem stripRomanQual_subset (cls : Char → Bool) (s : Str) :
    ∀ c ∈ stripRomanQual cls s, c ∈ s := by
  intro c hc
  simp only [stripRomanQual] at hc
  split at hc
  · exact hc
  · rw [List.mem_reverse] at hc
    have h1 := (List.drop_sublist _ _).subset hc
    have h2 := (List.drop_sublist _ _).subset h1
    exact List.mem_reverse.mp h2

/-- Every character of a comparison-normalized string is settled, and is
either the separator space or a non-space word character. -/
theorem nfc_chars (x : Str) :
    ∀ c ∈ normalizeForComparison x,
      charSettled c ∧ (c = ' ' ∨ (isWordPy c = true ∧ isSpacePy c = false)) := by
  intro c hc
  rw [normalizeForComparison_eq] at hc
  rcases mem_joinSpace hc with rfl | ⟨t, ht, hct⟩
  · exact ⟨⟨rfl, rfl, rfl, rfl, rfl⟩, Or.inl rfl⟩
  · have hcs9 : c ∈ stripRomanQual isRomanL (stripNumQual
        (List.filter (fun c => isWordPy c || isSpacePy c)
          (removeArticles
            (List.map (fun c => if isDashChar c then ' ' else c)
              (List.map (fun c => if isQuoteChar c then ' ' else c)
                (List.flatMap
                  (List.flatMap (trimL (toLowerStr x)) charLig)
                  charAcc)))))) := by
      rcases splitPyAux_mem _ [] t ht c hct with h | h
      · exact h
      · exact absurd h (List.not_mem_nil _)
    have hnospace : isSpacePy c = false := splitPy_no_space _ t ht c hct
    have hcs7 := stripNumQual_subset _ c (stripRomanQual_subset _ _ c hcs9)
    rw [List.mem_filter] at hcs7
    obtain ⟨hcs6, hkeep⟩ := hcs7
    have hsettled : charSettled c :=
      removeArticles_chars' charSettled ⟨rfl, rfl, rfl, rfl, rfl⟩ _
        (nfc_prefix_settled x) c hcs6
    refine ⟨hsettled, Or.inr ⟨?_, hnospace⟩⟩
    rcases Bool.or_eq_true_iff.mp hkeep with h | h
    · exact h
    · rw [h] at hnospace
      exact Bool.noConfusion hnospace

/-- Comparison-normalized strings are stable under split-and-rejoin. -/
theorem nfc_join_split (x : Str) :
    joinSpace (splitPy (normalizeForComparison x)) = normalizeForComparison x := by
  rw [normalizeForComparison_eq x]
  rw [splitPy_joinSpace _ (splitPy_ne_nil _) (splitPy_no_space _)]

/-- Comparison-normalized strings are already stripped. -/
theorem nfc_trim (x : Str) :
    trimL (normalizeForComparison x) = normalizeForComparison x := by
  rw [normalizeForComparison_eq x]
  exact trimL_joinSpace _ (splitPy_ne_nil _) (splitPy_no_space _)

/-- The character-level stages of `_normalize_for_comparison` fix any string
whose characters are settled; the token-level stages (articles, trailing
numerals and Roman numerals, whitespace collapse) are assumed fixed. -/
theorem nfc_fixed (y : Str)
    (hchars : ∀ c ∈ y,
      charSettled c ∧ (c = ' ' ∨ (isWordPy c = true ∧ isSpacePy c = false)))
    (hjoin : joinSpace (splitPy y) = y)
    (htrim : trimL y = y)
    (h2 : removeArticles y = y) (h3 : stripNumQual y = y)
    (h4 : stripRomanQual isRomanL y = y) :
    normalizeForComparison y = y := by
  rw [normalizeForComparison_eq]
  have hlow : toLowerStr y = y := map_id_of (fun c hc => (hchars c hc).1.1)
  rw [hlow, htrim]
  rw [flatMap_id_of (fun c hc => (hchars c hc).1.2.1)]
  rw [flatMap_id_of (fun c hc => (hchars c hc).1.2.2.1)]
  have hqmap : y.map (fun c => if isQuoteChar c then ' ' else c) = y :=
    map_id_of (fun c hc => if_neg (by simp [(hchars c hc).1.2.2.2.1]))
  have hdmap : y.map (fun c => if isDashChar c then ' ' else c) = y :=
    map_id_of (fun c hc => if_neg (by simp [(hchars c hc).1.2.2.2.2]))
  rw [hqmap, hdmap, h2]
  rw [List.filter_eq_self.mpr (fun c hc => by
    rcases (hchars c hc).2 with rfl | ⟨hw, _⟩
    · simp [isSpacePy]
    · simp [hw])]
  rw [h3, h4, hjoin]

/-- The full record-name normalization pipeline: `_normalize_trail_name`
followed by `_normalize_for_comparison`, as applied to a record name on the
way to the fuzzy comparison. -/
def normalizeRecordName (s : Str) : Str :=
  normalizeForComparison (normalizeTrailName s)

/-- C2 (corrected) — the full normalization pipeline is idempotent on every
string whose normalized form is fixed by the token-level stages: the
prefix/qualifier normalization (`_normalize_trail_name`), the article
removal, and the two trailing-numeral removals.  The character-level stages
(case fold, ligatures, diacritics, apostrophes and dashes, punctuation,
whitespace collapse) are always stable on normalized output; the
counterexample shows the token-level stages are not. -/
theorem normalizeRecordName_idempotent (s : Str)
    (h1 : normalizeTrailName (normalizeRecordName s) = normalizeRecordName s)
    (h2 : removeArticles (normalizeRecordName s) = normalizeRecordName s)
    (h3 : stripNumQual (normalizeRecordName s) = normalizeRecordName s)
    (h4 : stripRomanQual isRomanL (normalizeRecordName s) =
      normalizeRecordName s) :
    normalizeRecordName (normalizeRecordName s) = normalizeRecordName s := by
  show normalizeForComparison (normalizeTrailName (normalizeRecordName s)) =
    normalizeRecordName s
  rw [h1]
  exact nfc_fixed (normalizeRecordName s) (nfc_chars (normalizeTrailName s))
    (nfc_join_split (normalizeTrailName s)) (nfc_trim (normalizeTrailName s))
    h2 h3 h4

set_option maxRecDepth 10000 in
/-- C2 witness — idempotence on `"Café | Nord"`, whose normalized form
`"cafe"` is fixed by every token-level stage. -/
theorem normalizeRecordName_idempotent_witness :
    normalizeRecordName (normalizeRecordName ("Café | Nord".data)) =
      normalizeRecordName ("Café | Nord".data) :=
  normalizeRecordName_idempotent ("Café | Nord".data) (by decide) (by decide)
    (by decide) (by decide)

set_option maxRecDepth 10000 in
/-- C2 counterexample — normalization is not idempotent: the embedded
article removal replaces only non-overlapping occurrences, so
`"a le le b"` normalizes to `"a le b"`, which normalizes again to
`"a b"`. -/
theorem normalizeRecordName_not_idempotent :
    normalizeRecordName (normalizeRecordName ("a le le b".data)) ≠
      normalizeRecordName ("a le le b".data) := by
  decide

end Bromont
